import Mathlib

/-!
Verification development for the MyMolt security core.

Shallow embedding of the Rust sources under `src/`:
texts are modelled as `List Char` (with `String` wrappers at the API
boundary), byte strings as `List Nat`, stateful components as explicit
state-passing functions, and fallible code as `Option`/`Except`.

Modelling conventions for the regex character classes of
`SensitivityScanner` (src/src/memory/sovereign.rs): the Rust `regex`
crate's `\d`, `\s` and `\b` classes are modelled over their ASCII
subsets (the sensitive patterns themselves are ASCII); `[A-Z]`,
`[0-9]`, `[a-zA-Z0-9]` are exact.
-/

/-! ## Character classes used by the scanner regexes -/

/-- ASCII decimal digit, modelling `[0-9]` and the `\d` class. -/
def isDigitA (c : Char) : Bool := c.isDigit

/-- ASCII upper-case letter, modelling `[A-Z]`. -/
def isUpperA (c : Char) : Bool := c.isUpper

/-- Word character for the `\b` boundary (`[A-Za-z0-9_]`, ASCII model of `\w`). -/
def isWordA (c : Char) : Bool := c.isAlphanum || c == '_'

/-- Whitespace for `\s` (ASCII subset: space, tab, LF, CR, VT, FF). -/
def isSpaceA (c : Char) : Bool :=
  c == ' ' || c == '\t' || c == '\n' || c == '\r' || c == Char.ofNat 11 || c == Char.ofNat 12

/-- Character set `[a-zA-Z0-9-]` of the OpenAI key regex. -/
def isKeyChar (c : Char) : Bool := c.isAlphanum || c == '-'

/-- Character set `[0-9A-Za-z-_]` of the Google API key regex. -/
def isGoogleChar (c : Char) : Bool := c.isAlphanum || c == '-' || c == '_'

/-- Character set `[0-9A-Z]` of the AWS access key regex. -/
def isAwsChar (c : Char) : Bool := c.isDigit || c.isUpper

/-- Separator set `[ -]` of the credit-card regex. -/
def isSepChar (c : Char) : Bool := c == ' ' || c == '-'

/-! ## Generic string search helpers -/

/-- Does `l` start with the pattern `pat`? -/
def startsWithL : List Char → List Char → Bool
  | [], _ => true
  | _ :: _, [] => false
  | p :: ps, c :: cs => p == c && startsWithL ps cs

/-- Case-insensitive variant of `startsWithL` (`pat` is given lower-case). -/
def startsWithCI : List Char → List Char → Bool
  | [], _ => true
  | _ :: _, [] => false
  | p :: ps, c :: cs => p == c.toLower && startsWithCI ps cs

/-- Does `pat` occur as a contiguous substring of `l`? -/
def containsSub (pat l : List Char) : Bool := l.tails.any (startsWithL pat)

/-! ## The seven sensitive patterns

Each matcher reports, at a given position of the text, whether the
regex matches there and how many characters the (leftmost-first,
greedy-resolved) match consumes.  The credit-card matcher also needs
the character preceding the position for its `\b` boundary, so all
matchers share the signature `Option Char → List Char → Option Nat`.
-/

/-- Matcher signature: previous character, suffix at the position, match length. -/
abbrev MatcherFn := Option Char → List Char → Option Nat

/-- Matcher of `sk-[a-zA-Z0-9-]{20,}` (pattern `OpenAI Key`). -/
def openaiAt (l : List Char) : Option Nat :=
  if startsWithL "sk-".data l then
    let run := (l.drop 3).takeWhile isKeyChar
    if run.length ≥ 20 then some (3 + run.length) else none
  else none

/-- Matcher of `AIza[0-9A-Za-z-_]{35}` (pattern `Google API Key`). -/
def googleAt (l : List Char) : Option Nat :=
  if startsWithL "AIza".data l then
    let body := (l.drop 4).take 35
    if body.length == 35 && body.all isGoogleChar then some 39 else none
  else none

/-- Matcher of `AKIA[0-9A-Z]{16}` (pattern `AWS Access Key`). -/
def awsAt (l : List Char) : Option Nat :=
  if startsWithL "AKIA".data l then
    let body := (l.drop 4).take 16
    if body.length == 16 && body.all isAwsChar then some 20 else none
  else none

/-- Matcher of `-----BEGIN [A-Z]+ PRIVATE KEY-----` (pattern `Private Key Block`).
The greedy `[A-Z]+` run must be followed by the literal tail (the tail
starts with a blank, so no backtracking into the run can succeed). -/
def privkeyAt (l : List Char) : Option Nat :=
  if startsWithL "-----BEGIN ".data l then
    let r := l.drop 11
    let uppers := r.takeWhile isUpperA
    if uppers.length ≥ 1 && startsWithL " PRIVATE KEY-----".data (r.drop uppers.length)
    then some (11 + uppers.length + 17) else none
  else none

/-- Group loop of the IBAN regex `(?:[ ]?[0-9]{4}){4,}`: the parse is
deterministic (a blank can only be consumed when followed by four
digits, a digit position must consume exactly four digits).  Returns
`(group count, consumed length, rest)`. -/
def ibanChain : List Char → Nat × Nat × List Char
  | ' ' :: a :: b :: c :: d :: rest =>
    if isDigitA a && isDigitA b && isDigitA c && isDigitA d then
      let t := ibanChain rest
      (t.1 + 1, t.2.1 + 5, t.2.2)
    else (0, 0, ' ' :: a :: b :: c :: d :: rest)
  | a :: b :: c :: d :: rest =>
    if isDigitA a && isDigitA b && isDigitA c && isDigitA d then
      let t := ibanChain rest
      (t.1 + 1, t.2.1 + 4, t.2.2)
    else (0, 0, a :: b :: c :: d :: rest)
  | l => (0, 0, l)

/-- Optional greedy tail `(?:[ ]?[0-9]{1,2})?` of the IBAN regex:
consumed length. -/
def ibanTail : List Char → Nat
  | ' ' :: a :: b :: _ => if isDigitA a then (if isDigitA b then 3 else 2) else 0
  | ' ' :: a :: [] => if isDigitA a then 2 else 0
  | a :: b :: _ => if isDigitA a then (if isDigitA b then 2 else 1) else 0
  | a :: [] => if isDigitA a then 1 else 0
  | [] => 0

/-- Matcher of `[A-Z]{2}[0-9]{2}(?:[ ]?[0-9]{4}){4,}(?:[ ]?[0-9]{1,2})?`
(pattern `IBAN`). -/
def ibanAt (l : List Char) : Option Nat :=
  match l with
  | u1 :: u2 :: d1 :: d2 :: rest =>
    if isUpperA u1 && isUpperA u2 && isDigitA d1 && isDigitA d2 then
      let t := ibanChain rest
      if t.1 ≥ 4 then some (4 + t.2.1 + ibanTail t.2.2) else none
    else none
  | _ => none

/-- Digit chain of the credit-card regex `(?:\d[ -]*?){13,16}`: starting
at a digit, the list of text suffixes found immediately after each
successive digit of the chain (digits separated by `[ -]*`).  The fuel
argument (at least the text length) makes the recursion structural so
that the function evaluates inside the kernel; every step consumes at
least one character, so the fuel never runs out. -/
def ccStopsF : Nat → List Char → List (List Char)
  | 0, _ => []
  | _ + 1, [] => []
  | fuel + 1, c :: rest =>
    if isDigitA c then
      let r2 := rest.dropWhile isSepChar
      match r2 with
      | d :: _ => if isDigitA d then rest :: ccStopsF fuel r2 else [rest]
      | [] => [rest]
    else []

/-- Digit chain of the credit-card regex, fueled by the text length. -/
def ccStops (l : List Char) : List (List Char) := ccStopsF l.length l

/-- End-of-match condition of the trailing `\b`: the character right
after the last consumed digit is absent or not a word character. -/
def ccEndOK : List Char → Bool
  | [] => true
  | c :: _ => !isWordA c

/-- Try the repeat counts of `{13,16}` greedily (largest first);
returns the consumed length of the match. -/
def ccFind (l : List Char) (stops : List (List Char)) : List Nat → Option Nat
  | [] => none
  | k :: ks =>
    match stops.get? (k - 1) with
    | some r => if ccEndOK r then some (l.length - r.length) else ccFind l stops ks
    | none => ccFind l stops ks

/-- Word-boundary condition before the first digit of a match. -/
def boundaryBefore : Option Char → Bool
  | none => true
  | some p => !isWordA p

/-- Matcher of `\b(?:\d[ -]*?){13,16}\b` (pattern `Credit Card`). -/
def ccAt (prev : Option Char) (l : List Char) : Option Nat :=
  match l with
  | [] => none
  | c :: _ =>
    if boundaryBefore prev && isDigitA c then ccFind l (ccStops l) [16, 15, 14, 13]
    else none

/-- Keyword alternation `(?i)(pin|conf|cvv|code)`: at most one keyword
can match at a given position, so the alternation is deterministic. -/
def pinKeywordLen (l : List Char) : Option Nat :=
  if startsWithCI "pin".data l then some 3
  else if startsWithCI "conf".data l then some 4
  else if startsWithCI "cvv".data l then some 3
  else if startsWithCI "code".data l then some 4
  else none

/-- After the optional separator: `\s*` then `\d{3,8}` (greedy); returns
the consumed length. -/
def pinDigits (r : List Char) : Option Nat :=
  let s2 := (r.takeWhile isSpaceA).length
  let run := ((r.drop s2).takeWhile isDigitA).length
  if run ≥ 3 then some (s2 + min run 8) else none

/-- Matcher of `(?i)(pin|conf|cvv|code)\s*(?:is|:|=|-)?\s*(\d{3,8})`
(pattern `Bank PIN`). -/
def pinAt (l : List Char) : Option Nat :=
  match pinKeywordLen l with
  | none => none
  | some kw =>
    let r0 := l.drop kw
    let s1 := (r0.takeWhile isSpaceA).length
    let r1 := r0.drop s1
    let sep : Option Nat :=
      if startsWithCI "is".data r1 then some 2
      else match r1 with
        | c :: _ => if c == ':' || c == '=' || c == '-' then some 1 else none
        | [] => none
    match sep with
    | some sn =>
      match pinDigits (r1.drop sn) with
      | some d => some (kw + s1 + sn + d)
      | none =>
        match pinDigits r1 with
        | some d => some (kw + s1 + d)
        | none => none
    | none =>
      match pinDigits r1 with
      | some d => some (kw + s1 + d)
      | none => none

/-! ## The scanner (src/src/memory/sovereign.rs, `SensitivityScanner`) -/

/-- Pattern table in declaration order: indices 0..3 are prefix-guarded,
indices 4..6 always run. -/
def scanPatterns : List (String × MatcherFn) :=
  [("OpenAI Key", fun _ => openaiAt),
   ("Google API Key", fun _ => googleAt),
   ("AWS Access Key", fun _ => awsAt),
   ("Private Key Block", fun _ => privkeyAt),
   ("IBAN", fun _ => ibanAt),
   ("Credit Card", ccAt),
   ("Bank PIN", fun _ => pinAt)]

/-- Number of prefix-guarded patterns at the start of `scanPatterns`. -/
def prefixGuardedCount : Nat := 4

/-- Aho-Corasick pre-filter over the fixed prefixes
`sk-`, `AIza`, `AKIA`, `-----BEGIN`. -/
def preFilterHit (l : List Char) : Bool :=
  containsSub "sk-".data l || containsSub "AIza".data l ||
  containsSub "AKIA".data l || containsSub "-----BEGIN".data l

/-- Search for a match of `m` anywhere in the text, tracking the
previous character for the word-boundary matcher. -/
def findMatch (m : MatcherFn) : Option Char → List Char → Bool
  | prev, [] => (m prev []).isSome
  | prev, c :: rest => (m prev (c :: rest)).isSome || findMatch m (some c) rest

/-- Is there a match of `m` in `l` (`Regex::is_match`)? -/
def isMatchL (m : MatcherFn) (l : List Char) : Bool := findMatch m none l

/-- Loop body of `SensitivityScanner::scan`: iterate the patterns in
declaration order, skipping prefix-guarded ones when the pre-filter
found no prefix. -/
def scanGo (hasPre : Bool) : Nat → List (String × MatcherFn) → List Char → Option String
  | _, [], _ => none
  | i, (name, m) :: rest, t =>
    if i < prefixGuardedCount && !hasPre then scanGo hasPre (i + 1) rest t
    else if isMatchL m t then some name else scanGo hasPre (i + 1) rest t

/-- Model of `SensitivityScanner::scan`. -/
def SensitivityScanner.scan (text : String) : Option String :=
  scanGo (preFilterHit text.data) 0 scanPatterns text.data

/-- Redaction token `[REDACTED:{name}]`. -/
def tokenFor (name : String) : List Char := ("[REDACTED:" ++ name ++ "]").data

/-- Model of `Regex::replace_all`: replace every leftmost,
non-overlapping match of `m` by `tok`, continuing the search after each
match (the previous-character context is taken from the original text).
The fuel argument (at least the text length) makes the recursion
structural so that the function evaluates inside the kernel; every step
consumes at least one character, so the fuel never runs out. -/
def replaceAllGoF (m : MatcherFn) (tok : List Char) : Nat → Option Char → List Char → List Char
  | 0, _, l => l
  | _ + 1, _, [] => []
  | fuel + 1, prev, c :: rest =>
    match m prev (c :: rest) with
    | some n =>
      let n' := max n 1
      tok ++ replaceAllGoF m tok fuel ((c :: rest).take n').getLast? ((c :: rest).drop n')
    | none => c :: replaceAllGoF m tok fuel (some c) rest

/-- Model of `Regex::replace_all`, fueled by the text length. -/
def replaceAllGo (m : MatcherFn) (tok : List Char) (prev : Option Char) (l : List Char) :
    List Char :=
  replaceAllGoF m tok l.length prev l

/-- Loop body of `SensitivityScanner::redact`: for each pattern in
declaration order (with the same pre-filter guard as `scan`), if the
pattern matches the current text, record its name and replace all its
matches by the redaction token. -/
def redactGo (hasPre : Bool) :
    Nat → List (String × MatcherFn) → List Char → List String → List Char × List String
  | _, [], t, found => (t, found)
  | i, (name, m) :: rest, t, found =>
    if i < prefixGuardedCount && !hasPre then redactGo hasPre (i + 1) rest t found
    else if isMatchL m t then
      redactGo hasPre (i + 1) rest (replaceAllGo m (tokenFor name) none t) (found ++ [name])
    else redactGo hasPre (i + 1) rest t found

/-- Model of `SensitivityScanner::redact`. -/
def SensitivityScanner.redact (text : String) : String × List String :=
  let r := redactGo (preFilterHit text.data) 0 scanPatterns text.data []
  (String.mk r.1, r.2)

/-! ## Memory data model

Modelled from the spec: the defining module `src/memory/traits.rs`
(`Memory` trait, `MemoryEntry`, `MemoryCategory`) is not among the
provided sources; the shapes below follow spec §3 and the uses in
src/src/memory/simple.rs, sovereign.rs and scoped.rs.
-/

/-- Modelled from the spec: memory category enumeration with `Core`,
`Conversation` and the extensible `Custom(name)` (spec §3,
`MemoryCategory`); only these three variants appear in the sources. -/
inductive MemoryCategory where
  | Core
  | Conversation
  | Custom (name : String)
deriving DecidableEq, Repr

/-- Modelled from the spec: a memory entry
`(key, content, category, timestamp, id, optional session_id, optional
score)` (spec §3, `MemoryEntry`), matching the construction in
`SimpleMemory::store`.  The numeric score is carried as `Rat` since
floating point is outside this embedding; no claim inspects it. -/
structure MemoryEntry where
  key : String
  content : String
  category : MemoryCategory
  timestamp : String
  id : String
  session_id : Option String
  score : Option Rat
deriving DecidableEq, Repr

/-! ## SimpleMemory (src/src/memory/simple.rs)

The `RwLock<HashMap<String, MemoryEntry>>` becomes an association list
with insert-replaces semantics; the nondeterministic timestamp and
uuid of `SimpleMemory::store` become explicit arguments. -/

/-- State of `SimpleMemory`: the key-indexed entry map. -/
structure SimpleMemory where
  entries : List (String × MemoryEntry)
deriving DecidableEq, Repr

/-- Model of `SimpleMemory::store` (HashMap insert, replacing any
previous binding of the key). -/
def SimpleMemory.store (m : SimpleMemory) (key content : String) (category : MemoryCategory)
    (ts eid : String) : SimpleMemory :=
  ⟨(key, { key := key, content := content, category := category, timestamp := ts,
           id := eid, session_id := none, score := none }) ::
    m.entries.filter (fun p => p.1 != key)⟩

/-- Model of `SimpleMemory::get`. -/
def SimpleMemory.get (m : SimpleMemory) (key : String) : Option MemoryEntry :=
  (m.entries.find? (fun p => p.1 == key)).map (·.2)

/-- Model of `SimpleMemory::forget` (returns whether a binding was removed). -/
def SimpleMemory.forget (m : SimpleMemory) (key : String) : Bool × SimpleMemory :=
  if m.entries.any (fun p => p.1 == key)
  then (true, ⟨m.entries.filter (fun p => p.1 != key)⟩)
  else (false, m)

/-- Model of `SimpleMemory::list` (all entries, any category). -/
def SimpleMemory.list (m : SimpleMemory) : List MemoryEntry := m.entries.map (·.2)

/-- Model of `SimpleMemory::count`. -/
def SimpleMemory.count (m : SimpleMemory) : Nat := m.entries.length

/-! ## Hybrid vault (src/src/security/vault.rs)

The external `cryptfns` RSA/base64 primitives, the ChaCha20-Poly1305
AEAD and UTF-8 coding are consumed interfaces (spec §6); they are
parameters of the model, constrained by their documented contracts in
the theorems that need them.  The filesystem becomes a path-indexed
map; workspace-relative paths stand for `{workspace}/…`.  Random
values (symmetric key, nonce, uuid) become explicit arguments. -/

/-- Consumed crypto interfaces (spec §6): base64, RSA, AEAD, UTF-8. -/
structure CryptoPrims where
  b64encode : List Nat → List Char
  b64decode : List Char → Option (List Nat)
  rsaEncrypt : List Char → List Char → Option (List Char)
  rsaDecrypt : List Char → List Char → Option (List Char)
  aeadEncrypt : List Nat → List Nat → List Nat → Option (List Nat)
  aeadDecrypt : List Nat → List Nat → List Nat → Option (List Nat)
  utf8Encode : List Char → List Nat
  utf8Decode : List Nat → Option (List Char)

/-- Error kinds of the vault (spec §7 names, one per distinct failure
path of src/src/security/vault.rs; the source reports them as distinct
`anyhow` messages). -/
inductive VaultError where
  | MissingKey
  | MalformedEnvelope
  | WrappedKeyRejected
  | TamperedData
  | NonUtf8Plaintext
  | EncryptFailed
  | WrapFailed
  | NotFound
deriving DecidableEq, Repr

/-- Model of `str::split_once`: split at the first occurrence of `sep`. -/
def splitOnceL (sep : Char) : List Char → Option (List Char × List Char)
  | [] => none
  | c :: rest =>
    if c == sep then some ([], rest)
    else (splitOnceL sep rest).map (fun pr => (c :: pr.1, pr.2))

/-- ChaCha20-Poly1305 nonce length (96 bits), `NONCE_LEN`. -/
def NONCE_LEN : Nat := 12

/-- Model of `VaultManager::hybrid_encrypt`: AEAD-encrypt the plaintext
bytes under the fresh symmetric key and nonce, RSA-wrap the
base64-encoded symmetric key under the admin public key, and emit
`<wrapped>.<base64(nonce||ciphertext)>`.  `pubPem = none` models a
missing admin public key file. -/
def hybridEncrypt (P : CryptoPrims) (pubPem : Option (List Char)) (symKey nonce : List Nat)
    (plaintext : List Nat) : Except VaultError (List Char) :=
  match pubPem with
  | none => .error .MissingKey
  | some pub =>
    match P.aeadEncrypt symKey nonce plaintext with
    | none => .error .EncryptFailed
    | some ct =>
      let dataB64 := P.b64encode (nonce ++ ct)
      match P.rsaEncrypt (P.b64encode symKey) pub with
      | none => .error .WrapFailed
      | some wrapped => .ok (wrapped ++ '.' :: dataB64)

/-- Model of `VaultManager::hybrid_decrypt`, mirroring the source's
check order: load private key, split at the first `'.'`, RSA-unwrap,
base64-decode and length-check the symmetric key, base64-decode the
data blob, check `blob.len() > NONCE_LEN`, split off the 12-byte
nonce, AEAD-decrypt, UTF-8 decode. -/
def hybridDecrypt (P : CryptoPrims) (privPem : Option (List Char)) (envelope : List Char) :
    Except VaultError (List Char) :=
  match privPem with
  | none => .error .MissingKey
  | some priv =>
    match splitOnceL '.' envelope with
    | none => .error .MalformedEnvelope
    | some (wrappedB64, dataB64) =>
      match P.rsaDecrypt wrappedB64 priv with
      | none => .error .WrappedKeyRejected
      | some symB64 =>
        match P.b64decode symB64 with
        | none => .error .MalformedEnvelope
        | some symBytes =>
          if symBytes.length ≠ 32 then .error .MalformedEnvelope
          else
            match P.b64decode dataB64 with
            | none => .error .MalformedEnvelope
            | some blob =>
              if blob.length ≤ NONCE_LEN then .error .MalformedEnvelope
              else
                match P.aeadDecrypt symBytes (blob.take NONCE_LEN) (blob.drop NONCE_LEN) with
                | none => .error .TamperedData
                | some ptBytes =>
                  match P.utf8Decode ptBytes with
                  | none => .error .NonUtf8Plaintext
                  | some s => .ok s

/-- Workspace filesystem model: path-indexed file contents. -/
structure FSState where
  files : List (String × List Char)
deriving DecidableEq, Repr

/-- Read a file. -/
def FSState.read (fs : FSState) (p : String) : Option (List Char) :=
  (fs.files.find? (fun q => q.1 == p)).map (·.2)

/-- Write (create or overwrite) a file. -/
def FSState.write (fs : FSState) (p : String) (content : List Char) : FSState :=
  ⟨(p, content) :: fs.files.filter (fun q => q.1 != p)⟩

/-- Path of the Hoodik admin RSA public key (`load_admin_pubkey`). -/
def adminPubPath : String := "hoodik/keys/admin.pub"

/-- Path of the Hoodik admin RSA private key (`load_admin_privkey`). -/
def adminPrivPath : String := "hoodik/keys/admin.key"

/-- Model of `VaultManager::load_admin_pubkey`. -/
def VaultManager.loadAdminPubkey (fs : FSState) : Option (List Char) := fs.read adminPubPath

/-- Model of `VaultManager::load_admin_privkey`. -/
def VaultManager.loadAdminPrivkey (fs : FSState) : Option (List Char) := fs.read adminPrivPath

/-- Vault file path for an id. -/
def vaultFilePath (id : String) : String := "data/vault/" ++ id ++ ".vault"

/-- Metadata file path for an id. -/
def metaFilePath (id : String) : String := "data/meta/" ++ id ++ ".json"

/-- Model of `VaultManager::encrypt_to_vault`: hybrid-encrypt the
plaintext, write the envelope to `data/vault/<id>.vault`, write the
metadata file, index the description in the injected memory backend
under key `vault:<id>` with category `Custom("vault")`, and return the
metadata path.  The `recipient` argument is kept for API compatibility
and ignored (the admin key is always used); the uuid `id`, timestamp
and entry id are explicit arguments; the metadata JSON body is carried
as its description text (its exact serialization decides no claim);
the in-RAM plaintext scrub and the git commit have no observable
effect in this state model. -/
def VaultManager.encryptToVault (P : CryptoPrims) (fs : FSState) (memory : SimpleMemory)
    (id : String) (symKey nonce : List Nat) (plaintext : List Nat)
    (description recipient : String) (ts eid : String) :
    Except VaultError (FSState × SimpleMemory × String) :=
  match hybridEncrypt P (VaultManager.loadAdminPubkey fs) symKey nonce plaintext with
  | .error e => .error e
  | .ok env =>
    let fs1 := (fs.write (vaultFilePath id) env).write (metaFilePath id) description.data
    let mem1 := memory.store ("vault:" ++ id) description (MemoryCategory.Custom "vault") ts eid
    .ok (fs1, mem1, metaFilePath id)

/-- Model of `VaultManager::decrypt_from_vault`: load the envelope file
and hybrid-decrypt it. -/
def VaultManager.decryptFromVault (P : CryptoPrims) (fs : FSState) (id : String) :
    Except VaultError (List Char) :=
  match fs.read (vaultFilePath id) with
  | none => .error .NotFound
  | some env => hybridDecrypt P (VaultManager.loadAdminPrivkey fs) env

/-! ## Sovereign memory wrapper (src/src/memory/sovereign.rs) -/

/-- Opaque pointer text stored in place of vaulted content. -/
def vaultPointer (reason : String) : String := "[VAULT: " ++ reason ++ " - Access Required]"

/-- Vault index description built by `SovereignMemory::store`. -/
def vaultDescriptionFor (key reason : String) : String :=
  "Vaulted content for " ++ key ++ ": " ++ reason

/-- Default recipient set by `SovereignMemory::new` (the user's SSH
public key path; `encrypt_to_vault` ignores it). -/
def SovereignMemory.defaultRecipient : String := "~/.ssh/id_ed25519.pub"

/-- Model of `SovereignMemory::store` over a `SimpleMemory` inner
backend: pass `Custom("vault")` writes straight through; otherwise
scan the content, and on a hit encrypt it to the vault (which also
indexes the description in the inner backend) and store the opaque
pointer under the original key and category.  The audit-log append has
its errors swallowed by the source (`let _ = …`) and touches no state
modelled here. -/
def SovereignMemory.store (P : CryptoPrims) (fs : FSState) (inner : SimpleMemory)
    (vaultId : String) (symKey nonce : List Nat) (ts1 eid1 ts2 eid2 : String)
    (recipient : String) (key content : String) (category : MemoryCategory) :
    Except VaultError (FSState × SimpleMemory) :=
  if category = MemoryCategory.Custom "vault" then
    .ok (fs, inner.store key content category ts2 eid2)
  else
    match SensitivityScanner.scan content with
    | some reason =>
      match VaultManager.encryptToVault P fs inner vaultId symKey nonce
          (P.utf8Encode content.data) (vaultDescriptionFor key reason) recipient ts1 eid1 with
      | .error e => .error e
      | .ok (fs1, mem1, _) =>
        .ok (fs1, mem1.store key (vaultPointer reason) category ts2 eid2)
    | none => .ok (fs, inner.store key content category ts2 eid2)

/-! ## Scoped memory wrapper (src/src/memory/scoped.rs)

The pure request-shaping parts of `ScopedMemory` are modelled directly;
where the inner backend's answer is backend-specific (`recall`,
`list`), the inner result is an explicit argument, so the theorems
quantify over every underlying backend state. -/

/-- `SCOPE_SHARED` (src/src/identity/family.rs). -/
def SCOPE_SHARED : String := "shared"

/-- Model of `ScopedMemory::scoped_key`. -/
def ScopedMemory.scopedKey (userScope key : String) : String := userScope ++ ":" ++ key

/-- Model of `ScopedMemory::shared_key`. -/
def ScopedMemory.sharedKey (key : String) : String := SCOPE_SHARED ++ ":" ++ key

/-- Model of `ScopedMemory::store` over a `SimpleMemory` inner backend. -/
def ScopedMemory.store (userScope : String) (inner : SimpleMemory)
    (key content : String) (category : MemoryCategory) (ts eid : String) : SimpleMemory :=
  inner.store (ScopedMemory.scopedKey userScope key) content category ts eid

/-- Scope visibility predicate of `recall`/`list`/`count`: own scope or shared. -/
def ScopedMemory.visible (userScope : String) (e : MemoryEntry) : Bool :=
  e.key.startsWith (userScope ++ ":") || e.key.startsWith (SCOPE_SHARED ++ ":")

/-- Display mapping of `recall`: strip the own-scope prefix, tag shared
entries with `[shared] `. -/
def ScopedMemory.displayEntry (userScope : String) (e : MemoryEntry) : MemoryEntry :=
  if e.key.startsWith (userScope ++ ":") then
    { e with key := e.key.drop (userScope ++ ":").length }
  else if e.key.startsWith (SCOPE_SHARED ++ ":") then
    { e with key := "[shared] " ++ e.key.drop (SCOPE_SHARED ++ ":").length }
  else e

/-- Model of `ScopedMemory::recall`: `innerResult` stands for the inner
backend's `recall(query, limit * 3)` answer; filter to the caller's own
scope plus shared, truncate to `limit`, and map to display form. -/
def ScopedMemory.recall (userScope : String) (innerResult : List MemoryEntry) (limit : Nat) :
    List MemoryEntry :=
  ((innerResult.filter (ScopedMemory.visible userScope)).take limit).map
    (ScopedMemory.displayEntry userScope)

/-- Model of `ScopedMemory::get` over a `SimpleMemory` inner backend:
own scope first, then shared. -/
def ScopedMemory.get (userScope : String) (inner : SimpleMemory) (key : String) :
    Option MemoryEntry :=
  match inner.get (ScopedMemory.scopedKey userScope key) with
  | some e => some e
  | none => inner.get (ScopedMemory.sharedKey key)

/-- Model of `ScopedMemory::list`: `innerResult` stands for the inner
backend's `list(category)` answer. -/
def ScopedMemory.list (userScope : String) (innerResult : List MemoryEntry) :
    List MemoryEntry :=
  innerResult.filter (ScopedMemory.visible userScope)

/-- Model of `ScopedMemory::count`: `innerResult` stands for the inner
backend's `list(None)` answer. -/
def ScopedMemory.count (userScope : String) (innerResult : List MemoryEntry) : Nat :=
  (innerResult.filter (ScopedMemory.visible userScope)).length

/-- Model of `ScopedMemory::forget` over a `SimpleMemory` inner
backend: only the caller's own scope is touched. -/
def ScopedMemory.forget (userScope : String) (inner : SimpleMemory) (key : String) :
    Bool × SimpleMemory :=
  inner.forget (ScopedMemory.scopedKey userScope key)

/-! ## Identity document (src/src/identity/soul.rs) -/

/-- Trust levels of identity bindings (`TrustLevel`). -/
inductive TrustLevel where
  | Low
  | Medium
  | High
deriving DecidableEq, Repr

/-- An identity binding (`IdentityBinding`). -/
structure IdentityBinding where
  provider : String
  id : String
  trust_level : TrustLevel
  created_at : String
deriving DecidableEq, Repr

/-- Model of `str::trim` (ASCII whitespace; the binding lines are ASCII). -/
def trimL (l : List Char) : List Char :=
  ((l.dropWhile Char.isWhitespace).reverse.dropWhile Char.isWhitespace).reverse

/-- Model of `str::splitn(2, pat)` for a non-empty pattern: split at the
first occurrence of `pat`, returning the parts before and after it
(`none` when `pat` does not occur, which models the length-1 split). -/
def splitFirst (pat : List Char) : List Char → Option (List Char × List Char)
  | [] => none
  | c :: rest =>
    if startsWithL pat (c :: rest) then some ([], (c :: rest).drop pat.length)
    else (splitFirst pat rest).map (fun pr => (c :: pr.1, pr.2))

/-- Model of `str::rfind(pat)`: index of the last occurrence of `pat`. -/
def rfindSub (pat l : List Char) : Option Nat :=
  ((List.range (l.length + 1)).filter (fun i => startsWithL pat (l.drop i))).getLast?

/-- Model of `Soul::parse_binding_line`.  Byte indices of the source
coincide with character indices on the ASCII binding-line format.  The
slice `val_part[idx+8..len-1]` becomes a `drop`/`dropLast` (trimming
guarantees `idx + 8 < len`, so the source's slice cannot panic). -/
def Soul.parseBindingLine (line : String) : Option IdentityBinding :=
  match splitFirst "**".data line.data with
  | none => none
  | some (_, rest) =>
    match splitFirst "**:".data rest with
    | none => none
    | some (p, v) =>
      let provider := trimL p
      let valPart := trimL v
      match rfindSub " (Level ".data valPart with
      | none => none
      | some idx =>
        let id := trimL (valPart.take idx)
        let levelStr := (valPart.drop (idx + 8)).dropLast
        let trust :=
          if levelStr = "3".data ∨ levelStr = "High".data then TrustLevel.High
          else TrustLevel.Low
        some { provider := String.mk provider, id := String.mk id,
               trust_level := trust, created_at := "" }

/-! ## Role resolution (src/src/identity/roles.rs) -/

/-- User roles (`Role`). -/
inductive Role where
  | Root
  | Adult
  | Senior
  | Child
deriving DecidableEq, Repr

/-- Role-derivation configuration (`RoleConfig`); `user_age` models the
`Option<u8>` age hint. -/
structure RoleConfig where
  override_role : Option Role
  is_local : Bool
  user_age : Option Nat
deriving DecidableEq, Repr

/-- Model of `resolve_role`. -/
def resolve_role (trust : TrustLevel) (config : RoleConfig) : Role :=
  match config.override_role with
  | some role => role
  | none =>
    match config.user_age with
    | some age =>
      if age < 16 then Role.Child else resolve_role.trustBased trust config
    | none => resolve_role.trustBased trust config
where
  /-- Step 3 of `resolve_role`: trust-based resolution. -/
  trustBased (trust : TrustLevel) (config : RoleConfig) : Role :=
    match trust with
    | TrustLevel.High => if config.is_local then Role.Root else Role.Adult
    | TrustLevel.Medium => Role.Adult
    | TrustLevel.Low =>
      if (config.user_age.map (fun age => decide (65 ≤ age))).getD false then Role.Senior
      else Role.Child

/-- Role derivation written from the spec's words (spec §3,
`UserRole` derivation rules), to be compared with `resolve_role`:
explicit override wins; `user_age < 16` forces Child regardless of
trust; High trust + local → Root; High trust + remote → Adult; Medium
trust → Adult; Low trust + `age ≥ 65` → Senior; otherwise Child. -/
def specResolveRole (trust : TrustLevel) (config : RoleConfig) : Role :=
  match config.override_role with
  | some role => role
  | none =>
    if (match config.user_age with | some a => decide (a < 16) | none => false) then Role.Child
    else
      match trust, config.is_local with
      | TrustLevel.High, true => Role.Root
      | TrustLevel.High, false => Role.Adult
      | TrustLevel.Medium, _ => Role.Adult
      | TrustLevel.Low, _ =>
        if (match config.user_age with | some a => decide (65 ≤ a) | none => false) then Role.Senior
        else Role.Child

/-! ## Confirmation gate (src/src/security/confirmation.rs)

The pending map `id → (request, oneshot::Sender<bool>)` and the
oneshot channels become explicit state: `pending` holds the ids whose
sender is still in the map, `channel` records oneshot deliveries
(newest first).  A `request` call is the pair of a `requestStart`
(insert the pending entry, broadcast) and, after the resolves that
arrive before its timeout, a `requestFinish` (read the oneshot or
auto-deny, then remove the pending entry); real time is modelled by
which resolve events precede the finish. -/

/-- Gate state: pending ids and delivered oneshot values. -/
structure GateState where
  pending : List String
  channel : List (String × Bool)
deriving DecidableEq, Repr

/-- First half of `ConfirmationGate::request`: insert the pending
entry for the fresh id (the broadcast to listeners carries no state
modelled here). -/
def ConfirmationGate.requestStart (st : GateState) (id : String) : GateState :=
  ⟨id :: st.pending, st.channel⟩

/-- Model of `ConfirmationGate::resolve`: if the id is pending, remove
it, send `approved` on its oneshot and return `true`; otherwise return
`false` and leave the state unchanged. -/
def ConfirmationGate.resolve (st : GateState) (id : String) (approved : Bool) :
    Bool × GateState :=
  if id ∈ st.pending then
    (true, ⟨st.pending.erase id, (id, approved) :: st.channel⟩)
  else (false, st)

/-- Second half of `ConfirmationGate::request`: the awaited oneshot
value if one was delivered before the timeout, `false` otherwise
(auto-deny); in both cases the pending entry is removed. -/
def ConfirmationGate.requestFinish (st : GateState) (id : String) : Bool × GateState :=
  (((st.channel.find? (fun p => p.1 == id)).map (·.2)).getD false,
   ⟨st.pending.erase id, st.channel⟩)

/-- Run a sequence of `resolve` calls, collecting their return values. -/
def ConfirmationGate.runResolves : GateState → List (String × Bool) → GateState × List Bool
  | st, [] => (st, [])
  | st, (id, b) :: evs =>
    let r := ConfirmationGate.resolve st id b
    let t := ConfirmationGate.runResolves r.2 evs
    (t.1, r.1 :: t.2)

/-! ## Demonstration crypto instances

Concrete, executable instances of the consumed crypto interfaces,
used to instantiate the vault theorems at concrete inputs.  They
satisfy the interface contracts assumed by those theorems but are not
cryptography. -/

/-- Demonstration base64: one character per byte, offset past `'.'`. -/
def demoB64encode (b : List Nat) : List Char := b.map (fun n => Char.ofNat (n + 65))

/-- Strict decoder of `demoB64encode` (accepts only its exact image). -/
def demoB64decode (s : List Char) : Option (List Nat) :=
  if s.all (fun c => 65 ≤ c.toNat && c.toNat < 65 + 256) then
    some (s.map (fun c => c.toNat - 65))
  else none

/-- Demonstration UTF-8 byte coding. -/
def demoUtf8Encode (s : List Char) : List Nat := s.map Char.toNat

/-- Demonstration UTF-8 decoder (valid scalar values only). -/
def demoUtf8Decode (b : List Nat) : Option (List Char) :=
  if b.all (fun n => n < 55296) then some (b.map Char.ofNat) else none

/-- Fixed symmetric key of the demonstration AEAD/RSA session. -/
def demoKey : List Nat := List.range 32

/-- Fixed nonce of the demonstration session. -/
def demoNonce : List Nat := (List.range 12).map (fun n => n + 100)

/-- Fixed plaintext bytes of the demonstration session. -/
def demoPt : List Nat := demoUtf8Encode "super-secret-api-key-12345".data

/-- Fixed AEAD ciphertext of the demonstration session. -/
def demoCt : List Nat := demoPt ++ [7]

/-- Fixed RSA-wrapped key text of the demonstration session. -/
def demoWrapped : List Char := "WRAPPEDKEY".data

/-- Demonstration primitives with an ideal single-session AEAD and RSA:
only the genuine key/nonce/ciphertext triple authenticates, and only
the genuine wrapped text unwraps. -/
def DemoPrims : CryptoPrims where
  b64encode := demoB64encode
  b64decode := demoB64decode
  rsaEncrypt := fun m _ => if m = demoB64encode demoKey then some demoWrapped else none
  rsaDecrypt := fun w _ => if w = demoWrapped then some (demoB64encode demoKey) else none
  aeadEncrypt := fun k n p =>
    if k = demoKey ∧ n = demoNonce ∧ p = demoPt then some demoCt else none
  aeadDecrypt := fun k n c =>
    if k = demoKey ∧ n = demoNonce ∧ c = demoCt then some demoPt else none
  utf8Encode := demoUtf8Encode
  utf8Decode := demoUtf8Decode

/-- Permissive demonstration primitives: total codecs whose round
trips hold on every in-range input (used to instantiate theorems whose
hypotheses are per-value round trips). -/
def PermissivePrims : CryptoPrims where
  b64encode := demoB64encode
  b64decode := demoB64decode
  rsaEncrypt := fun m _ => some m
  rsaDecrypt := fun w _ => some w
  aeadEncrypt := fun _ _ p => some (p ++ [7])
  aeadDecrypt := fun _ _ c => some c.dropLast
  utf8Encode := demoUtf8Encode
  utf8Decode := demoUtf8Decode

/-- Lexicographic order on texts via character codes (the order
`Vec::sort` would use on these ASCII pattern names), used to state
sortedness of name lists. -/
def strLeB : List Char → List Char → Bool
  | [], _ => true
  | _ :: _, [] => false
  | a :: as, b :: bs =>
    if a.toNat < b.toNat then true
    else if b.toNat < a.toNat then false
    else strLeB as bs

/-- Is a list of names sorted under `strLeB`? -/
def sortedNamesB : List String → Bool
  | [] => true
  | [_] => true
  | a :: b :: rest => strLeB a.data b.data && sortedNamesB (b :: rest)

/-! ## Helper lemmas -/

/-- Value of `Char.ofNatAux`. -/
theorem charOfNatAux_toNat (n : Nat) (h : Nat.isValidChar n) : (Char.ofNatAux n h).toNat = n := by
  simp [Char.ofNatAux, Char.toNat, UInt32.toNat, BitVec.toNat_ofNat]

/-- The demonstration base64 never emits the envelope separator. -/
theorem demoB64encode_dotfree (b : List Nat) : '.' ∉ demoB64encode b := by
  intro hmem
  rcases List.mem_map.mp hmem with ⟨n, _, hEq⟩
  have h2 := congrArg Char.toNat hEq
  have h46 : ('.').toNat = 46 := by decide
  rw [h46] at h2
  by_cases hv : Nat.isValidChar (n + 65)
  · rw [show Char.ofNat (n + 65) = Char.ofNatAux (n + 65) hv from by
      unfold Char.ofNat; rw [dif_pos hv], charOfNatAux_toNat] at h2
    omega
  · rw [show (Char.ofNat (n + 65)).toNat = 0 from by
      unfold Char.ofNat; rw [dif_neg hv]; rfl] at h2
    exact absurd h2 (by decide)

/-- The demonstration base64 decoder only accepts its exact image
(canonical coding). -/
theorem demoB64decode_canonical (s : List Char) (b : List Nat)
    (h : demoB64decode s = some b) : s = demoB64encode b := by
  unfold demoB64decode at h
  split at h
  case isTrue hall =>
    injection h with h
    subst h
    unfold demoB64encode
    rw [List.map_map]
    have := List.all_eq_true.mp hall
    conv_lhs => rw [show s = s.map id from (List.map_id s).symm]
    refine List.map_congr_left ?_
    intro c hc
    have hr := this c hc
    simp only [Bool.and_eq_true, decide_eq_true_eq] at hr
    have h65 : c.toNat - 65 + 65 = c.toNat := by omega
    simp only [Function.comp, id, h65, Char.ofNat_toNat]
  case isFalse => exact absurd h (by simp)

/-- Lookup after `SimpleMemory.store` at the stored key. -/
theorem SimpleMemory.get_store_self (m : SimpleMemory) (k c : String) (cat : MemoryCategory)
    (ts eid : String) :
    (m.store k c cat ts eid).get k =
      some { key := k, content := c, category := cat, timestamp := ts, id := eid,
             session_id := none, score := none } := by
  simp [SimpleMemory.store, SimpleMemory.get, List.find?]

/-- Erasing another key's bindings does not change a lookup. -/
theorem find_filter_ne (k k' : String) (h : k' ≠ k) (l : List (String × MemoryEntry)) :
    List.find? (fun p => p.1 == k') (l.filter (fun p => p.1 != k)) =
      List.find? (fun p => p.1 == k') l := by
  induction l with
  | nil => rfl
  | cons p rest ih =>
    by_cases hp : p.1 = k'
    · have hfil : (p.1 != k) = true := by simp [hp]; exact h
      have hfind : (p.1 == k') = true := by simp [hp]
      simp [List.filter_cons, List.find?_cons, hfil, hfind]
    · have hfind : (p.1 == k') = false := by simp [hp]
      by_cases hpk : (p.1 != k) = true
      · simp [List.filter_cons, List.find?_cons, hfind, hpk, ih]
      · simp [List.filter_cons, List.find?_cons, hfind,
          show (p.1 != k) = false by simpa using hpk, ih]

/-- Lookup after `SimpleMemory.store` at another key. -/
theorem SimpleMemory.get_store_ne (m : SimpleMemory) (k k' c : String) (cat : MemoryCategory)
    (ts eid : String) (h : k' ≠ k) :
    (m.store k c cat ts eid).get k' = m.get k' := by
  simp only [SimpleMemory.store, SimpleMemory.get]
  simp only [List.find?_cons, show (k == k') = false from by simp [Ne.symm h]]
  rw [find_filter_ne k k' h]

/-- C8: `resolve_role` implements exactly the spec's derivation rules,
in order: explicit override wins; `user_age < 16` forces Child; High
trust resolves to Root locally and Adult remotely; Medium trust to
Adult; Low trust to Senior when `age ≥ 65` and to Child otherwise. -/
theorem C8_resolve_role_matches_spec (trust : TrustLevel) (config : RoleConfig) :
    resolve_role trust config = specResolveRole trust config := by
  rcases config with ⟨o, loc, age⟩
  cases o with
  | some r => rfl
  | none =>
    cases age with
    | none => cases trust <;> cases loc <;> rfl
    | some a =>
      by_cases h16 : a < 16
      · simp [resolve_role, specResolveRole, h16]
      · by_cases h65 : 65 ≤ a <;> cases trust <;> cases loc <;>
          simp [resolve_role, specResolveRole, resolve_role.trustBased, h16, h65]

/-- C6: evaluation of `Soul::parse_binding_line` at the failing input
`- **Google**: alice@example.com (Level 2)`: the code returns a binding
with trust level Low, while the claim (and the write path
`Soul::add_binding`, which serializes Medium as `Level 2`) requires
Medium — the `match` arm only special-cases `"3" | "High"`. -/
theorem C6_parse_binding_line_level2 :
    Soul.parseBindingLine "- **Google**: alice@example.com (Level 2)" =
      some { provider := "Google", id := "alice@example.com",
             trust_level := TrustLevel.Low, created_at := "" } := by
  rfl

/-- Once an id is no longer pending and its oneshot holds a value, no
later resolve sequence changes either fact. -/
theorem gate_run_keep (evs : List (String × Bool)) :
    ∀ (st : GateState) (id : String) (v : String × Bool),
      id ∉ st.pending →
      st.channel.find? (fun p => p.1 == id) = some v →
      (ConfirmationGate.runResolves st evs).1.channel.find? (fun p => p.1 == id) = some v ∧
        id ∉ (ConfirmationGate.runResolves st evs).1.pending := by
  induction evs with
  | nil => exact fun st id v hm hf => ⟨hf, hm⟩
  | cons e evs ih =>
    intro st id v hm hf
    obtain ⟨id', b⟩ := e
    simp only [ConfirmationGate.runResolves, ConfirmationGate.resolve]
    by_cases hp : id' ∈ st.pending
    · rw [if_pos hp]
      have hne : id' ≠ id := fun hEq => hm (hEq ▸ hp)
      refine ih _ id v ?_ ?_
      · intro hmem
        exact hm ((List.erase_sublist id' st.pending).mem hmem)
      · simp only [List.find?_cons, show (id' == id) = false from by simp [hne]]
        exact hf
    · rw [if_neg hp]
      exact ih st id v hm hf

/-- If no resolve targets the id, its oneshot stays empty. -/
theorem gate_run_none (evs : List (String × Bool)) :
    ∀ (st : GateState) (id : String),
      (∀ e ∈ evs, e.1 ≠ id) →
      st.channel.find? (fun p => p.1 == id) = none →
      (ConfirmationGate.runResolves st evs).1.channel.find? (fun p => p.1 == id) = none := by
  induction evs with
  | nil => exact fun _ _ _ hf => hf
  | cons e evs ih =>
    intro st id hall hf
    obtain ⟨id', b⟩ := e
    have hne : id' ≠ id := hall (id', b) (by simp)
    simp only [ConfirmationGate.runResolves, ConfirmationGate.resolve]
    by_cases hp : id' ∈ st.pending
    · rw [if_pos hp]
      refine ih _ id (fun e he => hall e (by simp [he])) ?_
      simp only [List.find?_cons, show (id' == id) = false from by simp [hne]]
      exact hf
    · rw [if_neg hp]
      exact ih st id (fun e he => hall e (by simp [he])) hf

/-- Resolve sequences never increase an id's multiplicity in the
pending table. -/
theorem gate_run_count (evs : List (String × Bool)) :
    ∀ (st : GateState) (id : String),
      ((ConfirmationGate.runResolves st evs).1.pending.count id) ≤ st.pending.count id := by
  induction evs with
  | nil => exact fun _ _ => Nat.le_refl _
  | cons e evs ih =>
    intro st id
    obtain ⟨id', b⟩ := e
    simp only [ConfirmationGate.runResolves, ConfirmationGate.resolve]
    by_cases hp : id' ∈ st.pending
    · rw [if_pos hp]
      exact Nat.le_trans (ih _ id) ((List.erase_sublist id' st.pending).count_le id)
    · rw [if_neg hp]
      exact ih st id

/-- The first resolve targeting a uniquely pending id delivers its
value to the oneshot, and no later resolve overwrites it. -/
theorem gate_run_first (evs : List (String × Bool)) :
    ∀ (st : GateState) (id : String) (e0 : String × Bool),
      st.pending.count id = 1 →
      st.channel.find? (fun p => p.1 == id) = none →
      evs.find? (fun e => e.1 == id) = some e0 →
      (ConfirmationGate.runResolves st evs).1.channel.find? (fun p => p.1 == id) =
        some (id, e0.2) := by
  induction evs with
  | nil => intro st id e0 _ _ hfind; exact absurd hfind (by simp)
  | cons e evs ih =>
    intro st id e0 hcount hchan hfind
    obtain ⟨id', b⟩ := e
    by_cases hd : (id' == id) = true
    · obtain rfl : id' = id := by simpa using hd
      have he0 : e0 = (id', b) := by
        simp only [List.find?_cons, beq_self_eq_true] at hfind
        exact (Option.some.inj hfind).symm
      have hmem : id' ∈ st.pending := by
        by_contra hno
        rw [List.count_eq_zero.mpr hno] at hcount
        exact absurd hcount (by simp)
      simp only [ConfirmationGate.runResolves, ConfirmationGate.resolve, if_pos hmem]
      have hgone : id' ∉ st.pending.erase id' := by
        intro hmem2
        have h1 := List.count_erase_self id' st.pending
        have h2 := List.count_eq_zero.not.mpr (by simpa using hmem2)
        omega
      rw [he0]
      exact (gate_run_keep evs ⟨st.pending.erase id', (id', b) :: st.channel⟩ id' (id', b)
        hgone (by simp)).1
    · have hne : id' ≠ id := by simpa using hd
      have hdf : (id' == id) = false := by simpa using hd
      simp only [List.find?_cons, hdf] at hfind
      simp only [ConfirmationGate.runResolves, ConfirmationGate.resolve]
      by_cases hp : id' ∈ st.pending
      · rw [if_pos hp]
        refine ih _ id e0 ?_ ?_ hfind
        · rw [List.count_erase_of_ne (Ne.symm hne)]
          exact hcount
        · simp only [List.find?_cons, hdf]
          exact hchan
      · rw [if_neg hp]
        exact ih st id e0 hcount hchan hfind

/-- C7: lifecycle of a confirmation request for a fresh id.  After
`requestStart`, over any sequence of resolve calls arriving before the
timeout: if the first resolve targeting the id carries `b`, `request`
returns `b` (so `true` for an approval before the timeout); if no
resolve targets the id before the timeout, `request` returns `false`;
in every case the id is afterwards absent from the pending map, and a
further resolve of the same id returns `false` (each id is consumed at
most once). -/
theorem C7_confirmation_request_lifecycle (st0 : GateState) (id : String)
    (evs : List (String × Bool)) (hp : id ∉ st0.pending)
    (hc : st0.channel.find? (fun p => p.1 == id) = none) :
    (∀ b, (evs.find? (fun e => e.1 == id)).map (·.2) = some b →
      (ConfirmationGate.requestFinish
        (ConfirmationGate.runResolves (ConfirmationGate.requestStart st0 id) evs).1 id).1 = b)
    ∧ (evs.find? (fun e => e.1 == id) = none →
      (ConfirmationGate.requestFinish
        (ConfirmationGate.runResolves (ConfirmationGate.requestStart st0 id) evs).1 id).1 = false)
    ∧ id ∉ (ConfirmationGate.requestFinish
        (ConfirmationGate.runResolves (ConfirmationGate.requestStart st0 id) evs).1 id).2.pending
    ∧ ∀ b', (ConfirmationGate.resolve
        (ConfirmationGate.requestFinish
          (ConfirmationGate.runResolves (ConfirmationGate.requestStart st0 id) evs).1 id).2
        id b').1 = false := by
  have hcount1 : (ConfirmationGate.requestStart st0 id).pending.count id = 1 := by
    simp [ConfirmationGate.requestStart, List.count_cons, List.count_eq_zero.mpr hp]
  have hnotmem : id ∉ (ConfirmationGate.requestFinish
      (ConfirmationGate.runResolves (ConfirmationGate.requestStart st0 id) evs).1 id).2.pending := by
    simp only [ConfirmationGate.requestFinish]
    intro hmem
    have h1 := List.count_erase_self id
      (ConfirmationGate.runResolves (ConfirmationGate.requestStart st0 id) evs).1.pending
    have h2 := gate_run_count evs (ConfirmationGate.requestStart st0 id) id
    have h3 := List.count_eq_zero.not.mpr (by simpa using hmem)
    omega
  refine ⟨?_, ?_, hnotmem, ?_⟩
  · intro b hb
    rcases Option.map_eq_some'.mp hb with ⟨e0, he0, hbe⟩
    have hrun := gate_run_first evs (ConfirmationGate.requestStart st0 id) id e0 hcount1 hc he0
    simp [ConfirmationGate.requestFinish, hrun, hbe]
  · intro hnone
    have hall : ∀ e ∈ evs, ¬((fun e => e.1 == id) e = true) := List.find?_eq_none.mp hnone
    have hrun := gate_run_none evs (ConfirmationGate.requestStart st0 id) id
      (fun e he => by simpa using hall e he) hc
    simp [ConfirmationGate.requestFinish, hrun]
  · intro b'
    simp [ConfirmationGate.resolve, hnotmem]

/-- Witness for C7 at a concrete run: a fresh gate, one request with
id `a`, approved by a single resolve before the timeout: `request`
returns `true`. -/
theorem C7_confirmation_request_lifecycle_witness :
    (ConfirmationGate.requestFinish
      (ConfirmationGate.runResolves
        (ConfirmationGate.requestStart ⟨[], []⟩ "a") [("a", true)]).1 "a").1 = true :=
  (C7_confirmation_request_lifecycle ⟨[], []⟩ "a" [("a", true)]
    (by simp) (by simp)).1 true (by simp)

/-- A non-empty `startsWithL` pattern pins down the head. -/
theorem startsWithL_head {p : Char} {ps l : List Char} (h : startsWithL (p :: ps) l = true) :
    ∃ t, l = p :: t := by
  cases l with
  | nil => exact absurd h (by simp [startsWithL])
  | cons c cs =>
    refine ⟨cs, ?_⟩
    simp only [startsWithL, Bool.and_eq_true, beq_iff_eq] at h
    rw [h.1]

/-- Lookup after `SimpleMemory.forget` at another key. -/
theorem SimpleMemory.get_forget_ne (m : SimpleMemory) (k k' : String) (h : k' ≠ k) :
    (m.forget k).2.get k' = m.get k' := by
  unfold SimpleMemory.forget
  by_cases ha : m.entries.any (fun p => p.1 == k)
  · rw [if_pos ha]
    simp only [SimpleMemory.get]
    rw [find_filter_ne k k' h]
  · rw [if_neg ha]

/-- C9: scope isolation of the scoped wrapper for a user scope `U` (of
the documented `user:<slug>` form).  `recall` and `list` only surface
inner entries whose key carries the `U:` or `shared:` prefix, `count`
counts exactly those, `get` only reads the `U:`-scoped or `shared:`
slot of the key, and `forget` leaves every `shared:`-prefixed binding
untouched and returns `false` when the key has no `U:`-scoped binding
(for instance when it exists only as shared). -/
theorem C9_scoped_memory_isolation (us : String)
    (hus : startsWithL "user:".data us.data = true) :
    (∀ (lim : Nat) (all : List MemoryEntry) (e' : MemoryEntry),
      e' ∈ ScopedMemory.recall us all lim →
      ∃ e, e ∈ all ∧ ScopedMemory.visible us e = true ∧ e' = ScopedMemory.displayEntry us e)
    ∧ (∀ (all : List MemoryEntry) (e : MemoryEntry),
      e ∈ ScopedMemory.list us all → ScopedMemory.visible us e = true)
    ∧ (∀ all : List MemoryEntry,
      ScopedMemory.count us all = (all.filter (ScopedMemory.visible us)).length)
    ∧ (∀ (inner : SimpleMemory) (key : String) (e : MemoryEntry),
      ScopedMemory.get us inner key = some e →
      inner.get (ScopedMemory.scopedKey us key) = some e ∨
        inner.get (ScopedMemory.sharedKey key) = some e)
    ∧ (∀ (inner : SimpleMemory) (key k' : String),
      startsWithL "shared:".data k'.data = true →
      (ScopedMemory.forget us inner key).2.get k' = inner.get k')
    ∧ (∀ (inner : SimpleMemory) (key : String),
      (∀ p ∈ inner.entries, p.1 ≠ ScopedMemory.scopedKey us key) →
      (ScopedMemory.forget us inner key).1 = false) := by
  refine ⟨?_, ?_, fun _ => rfl, ?_, ?_, ?_⟩
  · intro lim all e' hmem
    unfold ScopedMemory.recall at hmem
    rcases List.mem_map.mp hmem with ⟨e, hmem2, hEq⟩
    have hmem3 := List.take_subset lim _ hmem2
    rcases List.mem_filter.mp hmem3 with ⟨hall, hvis⟩
    exact ⟨e, hall, hvis, hEq.symm⟩
  · intro all e hmem
    exact (List.mem_filter.mp hmem).2
  · intro inner key e hget
    unfold ScopedMemory.get at hget
    cases hg : inner.get (ScopedMemory.scopedKey us key) with
    | some e2 =>
      rw [hg] at hget
      exact Or.inl (congrArg some (by simpa using hget))
    | none =>
      rw [hg] at hget
      exact Or.inr hget
  · intro inner key k' hk'
    have hne : k' ≠ ScopedMemory.scopedKey us key := by
      intro hEq
      rcases startsWithL_head hk' with ⟨t, ht⟩
      rcases startsWithL_head (p := 'u') (by simpa [startsWithL] using hus) with ⟨t2, ht2⟩
      have hdata : k'.data = us.data ++ (":" ++ key).data := by
        rw [hEq]
        simp [ScopedMemory.scopedKey, String.data_append]
      rw [ht, ht2] at hdata
      simp at hdata
    exact SimpleMemory.get_forget_ne inner _ k' hne
  · intro inner key hnone
    unfold ScopedMemory.forget SimpleMemory.forget
    rw [if_neg]
    intro hany
    rcases List.any_eq_true.mp hany with ⟨p, hp, hpk⟩
    exact hnone p hp (by simpa using hpk)

/-- Witness for C9 at a concrete state: scope `user:luca`, an inner
backend holding only `shared:wifi_password`: forgetting
`wifi_password` returns `false` and leaves the shared binding intact. -/
theorem C9_scoped_memory_isolation_witness :
    (ScopedMemory.forget "user:luca"
      ⟨[("shared:wifi_password",
         { key := "shared:wifi_password", content := "hunter2",
           category := MemoryCategory.Core, timestamp := "t", id := "i",
           session_id := none, score := none })]⟩ "wifi_password").1 = false ∧
    (ScopedMemory.forget "user:luca"
      ⟨[("shared:wifi_password",
         { key := "shared:wifi_password", content := "hunter2",
           category := MemoryCategory.Core, timestamp := "t", id := "i",
           session_id := none, score := none })]⟩ "wifi_password").2.get
      "shared:wifi_password" =
    SimpleMemory.get
      ⟨[("shared:wifi_password",
         { key := "shared:wifi_password", content := "hunter2",
           category := MemoryCategory.Core, timestamp := "t", id := "i",
           session_id := none, score := none })]⟩ "shared:wifi_password" := by
  have h := C9_scoped_memory_isolation "user:luca" (by decide)
  exact ⟨h.2.2.2.2.2 _ "wifi_password" (by decide),
         h.2.2.2.2.1 _ "wifi_password" "shared:wifi_password" (by decide)⟩

/-- The scanner only ever reports names from its pattern table. -/
theorem scanGo_mem (hasPre : Bool) :
    ∀ (i : Nat) (ps : List (String × MatcherFn)) (t : List Char) (r : String),
      scanGo hasPre i ps t = some r → r ∈ ps.map Prod.fst := by
  intro i ps
  induction ps generalizing i with
  | nil => intro t r h; exact absurd h (by simp [scanGo])
  | cons q rest ih =>
    intro t r h
    obtain ⟨name, m⟩ := q
    unfold scanGo at h
    by_cases hskip : (decide (i < prefixGuardedCount) && !hasPre) = true
    · rw [if_pos hskip] at h
      exact List.mem_cons_of_mem _ (ih (i + 1) t r h)
    · rw [if_neg hskip] at h
      by_cases hm : isMatchL m t = true
      · rw [if_pos hm] at h
        injection h with h
        exact h ▸ List.mem_cons_self _ _
      · rw [if_neg hm] at h
        exact List.mem_cons_of_mem _ (ih (i + 1) t r h)

/-- Every name `scan` can return is one of the seven pattern names. -/
theorem scan_names (t r : String) (h : SensitivityScanner.scan t = some r) :
    r = "OpenAI Key" ∨ r = "Google API Key" ∨ r = "AWS Access Key" ∨
    r = "Private Key Block" ∨ r = "IBAN" ∨ r = "Credit Card" ∨ r = "Bank PIN" := by
  have hm := scanGo_mem (preFilterHit t.data) 0 scanPatterns t.data r h
  simpa [scanPatterns] using hm

/-- The opaque pointer of each pattern name is itself scanner-clean. -/
theorem scan_vaultPointer_none (r : String)
    (h : r = "OpenAI Key" ∨ r = "Google API Key" ∨ r = "AWS Access Key" ∨
      r = "Private Key Block" ∨ r = "IBAN" ∨ r = "Credit Card" ∨ r = "Bank PIN") :
    SensitivityScanner.scan (vaultPointer r) = none := by
  rcases h with rfl | rfl | rfl | rfl | rfl | rfl | rfl <;> decide

/-- Characterization of a successful non-vault-category
`SovereignMemory::store`: either the scanner missed and the inner
backend stored the content verbatim, or it hit with name `r` and the
inner backend stored the vault index entry followed by the opaque
pointer under the original key and category. -/
theorem sovereignStore_ok (P : CryptoPrims) (fs : FSState) (inner : SimpleMemory)
    (vid : String) (symKey nonce : List Nat) (ts1 eid1 ts2 eid2 rcp key content : String)
    (cat : MemoryCategory) (hcat : cat ≠ MemoryCategory.Custom "vault")
    (fs' : FSState) (mem' : SimpleMemory)
    (hok : SovereignMemory.store P fs inner vid symKey nonce ts1 eid1 ts2 eid2 rcp
      key content cat = .ok (fs', mem')) :
    (SensitivityScanner.scan content = none ∧ mem' = inner.store key content cat ts2 eid2)
    ∨ (∃ r, SensitivityScanner.scan content = some r ∧
        mem' = (inner.store ("vault:" ++ vid) (vaultDescriptionFor key r)
          (MemoryCategory.Custom "vault") ts1 eid1).store key (vaultPointer r) cat ts2 eid2) := by
  unfold SovereignMemory.store at hok
  rw [if_neg hcat] at hok
  cases hscan : SensitivityScanner.scan content with
  | none =>
    rw [hscan] at hok
    left
    refine ⟨rfl, ?_⟩
    have h2 := congrArg Prod.snd (Except.ok.inj hok)
    exact h2.symm
  | some r =>
    rw [hscan] at hok
    right
    refine ⟨r, rfl, ?_⟩
    unfold VaultManager.encryptToVault at hok
    cases henc : hybridEncrypt P (VaultManager.loadAdminPubkey fs) symKey nonce
        (P.utf8Encode content.data) with
    | error e => rw [henc] at hok; exact absurd hok (by simp)
    | ok env =>
      rw [henc] at hok
      simp only at hok
      have := Except.ok.inj hok
      exact (congrArg Prod.snd this).symm

/-- C1: redaction completeness — for every text on which the scanner
finds a match and every category other than `Custom("vault")`, after a
successful `SovereignMemory::store` the inner backend holds under the
original key a value on which the scanner finds nothing (the vault
encryption step succeeding is the `.ok` hypothesis). -/
theorem C1_sovereign_store_redacts (P : CryptoPrims) (fs : FSState) (inner : SimpleMemory)
    (vid : String) (symKey nonce : List Nat) (ts1 eid1 ts2 eid2 rcp key content : String)
    (cat : MemoryCategory) (hcat : cat ≠ MemoryCategory.Custom "vault") (r0 : String)
    (hscan : SensitivityScanner.scan content = some r0)
    (fs' : FSState) (mem' : SimpleMemory)
    (hok : SovereignMemory.store P fs inner vid symKey nonce ts1 eid1 ts2 eid2 rcp
      key content cat = .ok (fs', mem')) :
    ∃ e, mem'.get key = some e ∧ SensitivityScanner.scan e.content = none := by
  rcases sovereignStore_ok P fs inner vid symKey nonce ts1 eid1 ts2 eid2 rcp key content cat
      hcat fs' mem' hok with ⟨hnone, _⟩ | ⟨r, hr, hmem⟩
  · rw [hscan] at hnone
    exact absurd hnone (by simp)
  · refine ⟨{ key := key, content := vaultPointer r, category := cat, timestamp := ts2,
               id := eid2, session_id := none, score := none }, ?_, ?_⟩
    · rw [hmem]
      exact SimpleMemory.get_store_self _ key (vaultPointer r) cat ts2 eid2
    · exact scan_vaultPointer_none r (scan_names content r hr)

/-- Witness for C1 at the spec's concrete scenario: storing
`"My PIN is 1234"` under key `note1`, category `Conversation`, through
the sovereign wrapper over an empty backend. -/
theorem C1_sovereign_store_redacts_witness :
    ∃ fs' mem', SovereignMemory.store PermissivePrims
      ⟨[(adminPubPath, "PUB".data), (adminPrivPath, "PRIV".data)]⟩ ⟨[]⟩
      "vid" demoKey demoNonce "t1" "e1" "t2" "e2" SovereignMemory.defaultRecipient
      "note1" "My PIN is 1234" MemoryCategory.Conversation = .ok (fs', mem') ∧
    ∃ e, mem'.get "note1" = some e ∧ SensitivityScanner.scan e.content = none := by
  have hIsOk : (SovereignMemory.store PermissivePrims
      ⟨[(adminPubPath, "PUB".data), (adminPrivPath, "PRIV".data)]⟩ ⟨[]⟩
      "vid" demoKey demoNonce "t1" "e1" "t2" "e2" SovereignMemory.defaultRecipient
      "note1" "My PIN is 1234" MemoryCategory.Conversation).isOk = true := by decide
  rcases h : SovereignMemory.store PermissivePrims
      ⟨[(adminPubPath, "PUB".data), (adminPrivPath, "PRIV".data)]⟩ ⟨[]⟩
      "vid" demoKey demoNonce "t1" "e1" "t2" "e2" SovereignMemory.defaultRecipient
      "note1" "My PIN is 1234" MemoryCategory.Conversation with e | p
  · rw [h] at hIsOk
    exact absurd hIsOk (by simp [Except.isOk, Except.toBool])
  · obtain ⟨fs1, mem1⟩ := p
    refine ⟨fs1, mem1, rfl, ?_⟩
    exact C1_sovereign_store_redacts PermissivePrims
      ⟨[(adminPubPath, "PUB".data), (adminPrivPath, "PRIV".data)]⟩ ⟨[]⟩
      "vid" demoKey demoNonce "t1" "e1" "t2" "e2" SovereignMemory.defaultRecipient
      "note1" "My PIN is 1234" MemoryCategory.Conversation (by simp)
      "Bank PIN" (by decide) fs1 mem1 h

/-- C2: a successful `SovereignMemory::store` under a category other
than `Custom("vault")` stores, under the original key and category,
either the original content verbatim (scanner miss) or exactly the
opaque pointer `[VAULT: <P> - Access Required]` for the pattern name
`P` returned by the scanner; for category `Custom("vault")` the
content always passes through verbatim. -/
theorem C2_sovereign_store_pointer_shape (P : CryptoPrims) (fs : FSState)
    (inner : SimpleMemory) (vid : String) (symKey nonce : List Nat)
    (ts1 eid1 ts2 eid2 rcp key content : String) (cat : MemoryCategory) :
    (cat = MemoryCategory.Custom "vault" →
      SovereignMemory.store P fs inner vid symKey nonce ts1 eid1 ts2 eid2 rcp
        key content cat = .ok (fs, inner.store key content cat ts2 eid2))
    ∧ (cat ≠ MemoryCategory.Custom "vault" →
      ∀ fs' mem', SovereignMemory.store P fs inner vid symKey nonce ts1 eid1 ts2 eid2 rcp
        key content cat = .ok (fs', mem') →
      (SensitivityScanner.scan content = none ∧
        mem'.get key = some { key := key, content := content, category := cat,
                              timestamp := ts2, id := eid2, session_id := none, score := none })
      ∨ (∃ r, SensitivityScanner.scan content = some r ∧
        mem'.get key = some { key := key, content := vaultPointer r, category := cat,
                              timestamp := ts2, id := eid2, session_id := none,
                              score := none })) := by
  constructor
  · intro hcat
    unfold SovereignMemory.store
    rw [if_pos hcat]
  · intro hcat fs' mem' hok
    rcases sovereignStore_ok P fs inner vid symKey nonce ts1 eid1 ts2 eid2 rcp key content cat
        hcat fs' mem' hok with ⟨hnone, hmem⟩ | ⟨r, hr, hmem⟩
    · left
      refine ⟨hnone, ?_⟩
      rw [hmem]
      exact SimpleMemory.get_store_self inner key content cat ts2 eid2
    · right
      refine ⟨r, hr, ?_⟩
      rw [hmem]
      exact SimpleMemory.get_store_self _ key (vaultPointer r) cat ts2 eid2

/-- Witness for C2 at a concrete scanner miss: harmless text is stored
verbatim under its key and category. -/
theorem C2_sovereign_store_pointer_shape_witness :
    ∃ fs' mem', SovereignMemory.store PermissivePrims
      ⟨[(adminPubPath, "PUB".data), (adminPrivPath, "PRIV".data)]⟩ ⟨[]⟩
      "vid" demoKey demoNonce "t1" "e1" "t2" "e2" SovereignMemory.defaultRecipient
      "note2" "Tell me about the weather" MemoryCategory.Conversation = .ok (fs', mem') ∧
    mem'.get "note2" = some { key := "note2", content := "Tell me about the weather",
                              category := MemoryCategory.Conversation, timestamp := "t2",
                              id := "e2", session_id := none, score := none } := by
  have hIsOk : (SovereignMemory.store PermissivePrims
      ⟨[(adminPubPath, "PUB".data), (adminPrivPath, "PRIV".data)]⟩ ⟨[]⟩
      "vid" demoKey demoNonce "t1" "e1" "t2" "e2" SovereignMemory.defaultRecipient
      "note2" "Tell me about the weather" MemoryCategory.Conversation).isOk = true := by decide
  rcases h : SovereignMemory.store PermissivePrims
      ⟨[(adminPubPath, "PUB".data), (adminPrivPath, "PRIV".data)]⟩ ⟨[]⟩
      "vid" demoKey demoNonce "t1" "e1" "t2" "e2" SovereignMemory.defaultRecipient
      "note2" "Tell me about the weather" MemoryCategory.Conversation with e | p
  · rw [h] at hIsOk
    exact absurd hIsOk (by simp [Except.isOk, Except.toBool])
  · obtain ⟨fs1, mem1⟩ := p
    refine ⟨fs1, mem1, rfl, ?_⟩
    rcases (C2_sovereign_store_pointer_shape PermissivePrims
        ⟨[(adminPubPath, "PUB".data), (adminPrivPath, "PRIV".data)]⟩ ⟨[]⟩
        "vid" demoKey demoNonce "t1" "e1" "t2" "e2" SovereignMemory.defaultRecipient
        "note2" "Tell me about the weather" MemoryCategory.Conversation).2
        (by simp) fs1 mem1 h with ⟨_, hget⟩ | ⟨r, hr, _⟩
    · exact hget
    · rw [show SensitivityScanner.scan "Tell me about the weather" = none from by decide] at hr
      exact absurd hr (by simp)

/-- The names accumulated by `redactGo` extend the accumulator by a
sublist of the remaining pattern names, in declaration order. -/
theorem redactGo_names (hasPre : Bool) :
    ∀ (ps : List (String × MatcherFn)) (i : Nat) (t : List Char) (found : List String),
      ∃ s, (redactGo hasPre i ps t found).2 = found ++ s ∧ s.Sublist (ps.map Prod.fst) := by
  intro ps
  induction ps with
  | nil => exact fun i t found => ⟨[], by simp [redactGo]⟩
  | cons q rest ih =>
    intro i t found
    obtain ⟨name, m⟩ := q
    unfold redactGo
    by_cases hskip : (decide (i < prefixGuardedCount) && !hasPre) = true
    · rw [if_pos hskip]
      rcases ih (i + 1) t found with ⟨s, hs, hsub⟩
      exact ⟨s, hs, hsub.cons _⟩
    · rw [if_neg hskip]
      by_cases hm : isMatchL m t = true
      · rw [if_pos hm]
        rcases ih (i + 1) (replaceAllGo m (tokenFor name) none t) (found ++ [name])
          with ⟨s, hs, hsub⟩
        exact ⟨name :: s, by simpa using hs, hsub.cons₂ _⟩
      · rw [if_neg hm]
        rcases ih (i + 1) t found with ⟨s, hs, hsub⟩
        exact ⟨s, hs, hsub.cons _⟩

/-- The first name `redact` collects is the name `scan` returns. -/
theorem redactGo_head (hasPre : Bool) :
    ∀ (ps : List (String × MatcherFn)) (i : Nat) (t : List Char),
      ((redactGo hasPre i ps t []).2).head? = scanGo hasPre i ps t := by
  intro ps
  induction ps with
  | nil => intro i t; simp [redactGo, scanGo]
  | cons q rest ih =>
    intro i t
    obtain ⟨name, m⟩ := q
    unfold redactGo scanGo
    by_cases hskip : (decide (i < prefixGuardedCount) && !hasPre) = true
    · rw [if_pos hskip, if_pos hskip]
      exact ih (i + 1) t
    · rw [if_neg hskip, if_neg hskip]
      by_cases hm : isMatchL m t = true
      · rw [if_pos hm, if_pos hm]
        rcases redactGo_names hasPre rest (i + 1)
          (replaceAllGo m (tokenFor name) none t) [name] with ⟨s, hs, _⟩
        simp only [List.nil_append]
        rw [hs]
        rfl
      · rw [if_neg hm, if_neg hm]
        exact ih (i + 1) t

/-- When `scan` finds nothing, `redact` changes nothing. -/
theorem redactGo_of_scanGo_none (hasPre : Bool) :
    ∀ (ps : List (String × MatcherFn)) (i : Nat) (t : List Char) (found : List String),
      scanGo hasPre i ps t = none → redactGo hasPre i ps t found = (t, found) := by
  intro ps
  induction ps with
  | nil => intro i t found _; rfl
  | cons q rest ih =>
    intro i t found hnone
    obtain ⟨name, m⟩ := q
    unfold scanGo at hnone
    unfold redactGo
    by_cases hskip : (decide (i < prefixGuardedCount) && !hasPre) = true
    · rw [if_pos hskip] at hnone ⊢
      exact ih (i + 1) t found hnone
    · rw [if_neg hskip] at hnone ⊢
      by_cases hm : isMatchL m t = true
      · rw [if_pos hm] at hnone
        exact absurd hnone (by simp)
      · rw [if_neg hm] at hnone ⊢
        exact ih (i + 1) t found hnone

/-- C10 (amended): `redact` returns the duplicate-free list of the
pattern names found, in pattern declaration order (not sorted
alphabetically); its first element is exactly `scan`'s result, and on
a scanner miss the text is returned unchanged with no names.  The
original claim's guarantees that the name list is sorted and that the
redacted text is always scanner-clean do not hold (see the
counterexample). -/
theorem C10_redact_names (text : String) :
    ((SensitivityScanner.redact text).2).head? = SensitivityScanner.scan text
    ∧ (SensitivityScanner.redact text).2.Sublist (scanPatterns.map Prod.fst)
    ∧ (SensitivityScanner.redact text).2.Nodup
    ∧ (SensitivityScanner.scan text = none →
        SensitivityScanner.redact text = (text, [])) := by
  have hsub : (SensitivityScanner.redact text).2.Sublist (scanPatterns.map Prod.fst) := by
    unfold SensitivityScanner.redact
    rcases redactGo_names (preFilterHit text.data) scanPatterns 0 text.data []
      with ⟨s, hs, hsubl⟩
    simpa [hs] using hsubl
  refine ⟨?_, hsub, hsub.nodup (by decide), ?_⟩
  · unfold SensitivityScanner.redact SensitivityScanner.scan
    exact redactGo_head (preFilterHit text.data) scanPatterns 0 text.data
  · intro hnone
    unfold SensitivityScanner.redact
    unfold SensitivityScanner.scan at hnone
    rw [redactGo_of_scanGo_none (preFilterHit text.data) scanPatterns 0 text.data [] hnone]

/-- Witness for C10 at a concrete scanner miss: harmless text comes
back unchanged with an empty name list. -/
theorem C10_redact_names_witness :
    SensitivityScanner.redact "The weather is nice today" =
      ("The weather is nice today", []) :=
  (C10_redact_names "The weather is nice today").2.2.2 (by decide)

/-- C10 (counterexample): on the text below, `redact` returns the name
list `[OpenAI Key, Google API Key, Bank PIN]` — which is not sorted —
and the redacted text still scans as `Credit Card` (the `Bank PIN`
replacement consumes only eight of the twenty-one digits, and the
thirteen digits left after the token now sit at a word boundary), so
neither the "sorted list" nor the "scan of the redacted text returns
None" part of the claim holds. -/
theorem C10_redact_counterexample :
    (SensitivityScanner.redact
      "sk-abcdefghijklmnopqrst AIzaSyA1234567890abcdefghijklmnopqrstuvwx code 123456789012345678901").2
      = ["OpenAI Key", "Google API Key", "Bank PIN"]
    ∧ sortedNamesB ["OpenAI Key", "Google API Key", "Bank PIN"] = false
    ∧ SensitivityScanner.scan (SensitivityScanner.redact
      "sk-abcdefghijklmnopqrst AIzaSyA1234567890abcdefghijklmnopqrstuvwx code 123456789012345678901").1
      = some "Credit Card" := by
  refine ⟨by decide, by decide, by decide⟩

/-- Generic form of `find_filter_ne` for any value type. -/
theorem find_filter_ne_gen {α : Type} (k k' : String) (h : k' ≠ k) (l : List (String × α)) :
    List.find? (fun p => p.1 == k') (l.filter (fun p => p.1 != k)) =
      List.find? (fun p => p.1 == k') l := by
  induction l with
  | nil => rfl
  | cons p rest ih =>
    by_cases hp : p.1 = k'
    · have hfil : (p.1 != k) = true := by simp [hp]; exact h
      have hfind : (p.1 == k') = true := by simp [hp]
      simp [List.filter_cons, List.find?_cons, hfil, hfind]
    · have hfind : (p.1 == k') = false := by simp [hp]
      by_cases hpk : (p.1 != k) = true
      · simp [List.filter_cons, List.find?_cons, hfind, hpk, ih]
      · simp [List.filter_cons, List.find?_cons, hfind,
          show (p.1 != k) = false by simpa using hpk, ih]

/-- Reading a path just written. -/
theorem FSState.read_write_self (fs : FSState) (p : String) (c : List Char) :
    (fs.write p c).read p = some c := by
  simp [FSState.read, FSState.write, List.find?]

/-- Reading another path after a write. -/
theorem FSState.read_write_ne (fs : FSState) (p q : String) (c : List Char) (h : q ≠ p) :
    (fs.write p c).read q = fs.read q := by
  simp only [FSState.read, FSState.write]
  simp only [List.find?_cons, show (p == q) = false from by simp [Ne.symm h]]
  rw [find_filter_ne_gen p q h]

/-- The metadata path of an id never collides with its vault path. -/
theorem metaFilePath_ne_vaultFilePath (id : String) : metaFilePath id ≠ vaultFilePath id := by
  intro h
  have hd := congrArg String.data h
  unfold metaFilePath vaultFilePath at hd
  rw [String.data_append, String.data_append, String.data_append, String.data_append] at hd
  have h5 := congrArg (fun l : List Char => l.get? 5) hd
  simp only [] at h5
  rw [show ∀ (b c : List Char), (("data/meta/".data ++ b) ++ c).get? 5 = some 'm' from by
      intro b c
      rw [List.get?_append (by simp), List.get?_append (by decide)]
      decide] at h5
  rw [show ∀ (b c : List Char), (("data/vault/".data ++ b) ++ c).get? 5 = some 'v' from by
      intro b c
      rw [List.get?_append (by simp), List.get?_append (by decide)]
      decide] at h5
  exact absurd h5 (by decide)

/-- C5: the `recipient` argument of `encrypt_to_vault` has no influence
on the result — any two calls differing only in the recipient behave
identically (also through `SovereignMemory::store`, which passes the
user's SSH public key path as recipient) — and on success the
envelope written to the vault file wraps the symmetric key under the
RSA public key read from `{workspace}/hoodik/keys/admin.pub`. -/
theorem C5_recipient_ignored (P : CryptoPrims) (fs : FSState) (inner : SimpleMemory)
    (id : String) (symKey nonce : List Nat) (pt : List Nat) (desc ts eid : String) :
    (∀ r1 r2 : String,
      VaultManager.encryptToVault P fs inner id symKey nonce pt desc r1 ts eid =
      VaultManager.encryptToVault P fs inner id symKey nonce pt desc r2 ts eid)
    ∧ (∀ (vid : String) (k n : List Nat) (ts1 eid1 ts2 eid2 key content : String)
        (cat : MemoryCategory) (r1 r2 : String),
      SovereignMemory.store P fs inner vid k n ts1 eid1 ts2 eid2 r1 key content cat =
      SovereignMemory.store P fs inner vid k n ts1 eid1 ts2 eid2 r2 key content cat)
    ∧ (∀ (rcp : String) (fs' : FSState) (mem' : SimpleMemory) (path : String),
      VaultManager.encryptToVault P fs inner id symKey nonce pt desc rcp ts eid =
        .ok (fs', mem', path) →
      ∃ pub wrapped ct, VaultManager.loadAdminPubkey fs = some pub ∧
        P.aeadEncrypt symKey nonce pt = some ct ∧
        P.rsaEncrypt (P.b64encode symKey) pub = some wrapped ∧
        fs'.read (vaultFilePath id) = some (wrapped ++ '.' :: P.b64encode (nonce ++ ct))) := by
  refine ⟨fun _ _ => rfl, fun _ _ _ _ _ _ _ _ _ _ _ _ => rfl, ?_⟩
  intro rcp fs' mem' path hok
  unfold VaultManager.encryptToVault hybridEncrypt at hok
  cases hpub : VaultManager.loadAdminPubkey fs with
  | none => simp [hpub] at hok
  | some pub =>
    simp only [hpub] at hok
    cases hct : P.aeadEncrypt symKey nonce pt with
    | none => simp [hct] at hok
    | some ct =>
      simp only [hct] at hok
      cases hwr : P.rsaEncrypt (P.b64encode symKey) pub with
      | none => simp [hwr] at hok
      | some wrapped =>
        simp only [hwr] at hok
        have hfs := congrArg Prod.fst (Except.ok.inj hok)
        dsimp only at hfs
        refine ⟨pub, wrapped, ct, rfl, rfl, hwr, ?_⟩
        rw [← hfs, FSState.read_write_ne _ _ _ _ (Ne.symm (metaFilePath_ne_vaultFilePath id)),
          FSState.read_write_self]

/-- Witness for C5 at concrete inputs: two calls differing only in the
recipient coincide, and the concrete envelope's key half is the RSA
wrap under the admin key file's content. -/
theorem C5_recipient_ignored_witness :
    (VaultManager.encryptToVault PermissivePrims ⟨[(adminPubPath, "PUB".data)]⟩ ⟨[]⟩
      "vid" demoKey demoNonce demoPt "desc" "~/.ssh/id_ed25519.pub" "t" "e" =
     VaultManager.encryptToVault PermissivePrims ⟨[(adminPubPath, "PUB".data)]⟩ ⟨[]⟩
      "vid" demoKey demoNonce demoPt "desc" "someone-else" "t" "e")
    ∧ ∃ pub wrapped ct,
        VaultManager.loadAdminPubkey ⟨[(adminPubPath, "PUB".data)]⟩ = some pub ∧
        PermissivePrims.aeadEncrypt demoKey demoNonce demoPt = some ct ∧
        PermissivePrims.rsaEncrypt (PermissivePrims.b64encode demoKey) pub = some wrapped ∧
        ∃ fs' mem' path,
          VaultManager.encryptToVault PermissivePrims ⟨[(adminPubPath, "PUB".data)]⟩ ⟨[]⟩
            "vid" demoKey demoNonce demoPt "desc" "~/.ssh/id_ed25519.pub" "t" "e" =
            .ok (fs', mem', path) ∧
          fs'.read (vaultFilePath "vid") =
            some (wrapped ++ '.' :: PermissivePrims.b64encode (demoNonce ++ demoCt)) := by
  have hIsOk : (VaultManager.encryptToVault PermissivePrims ⟨[(adminPubPath, "PUB".data)]⟩ ⟨[]⟩
      "vid" demoKey demoNonce demoPt "desc" "~/.ssh/id_ed25519.pub" "t" "e").isOk = true := by
    decide
  rcases h : VaultManager.encryptToVault PermissivePrims ⟨[(adminPubPath, "PUB".data)]⟩ ⟨[]⟩
      "vid" demoKey demoNonce demoPt "desc" "~/.ssh/id_ed25519.pub" "t" "e" with e | p
  · rw [h] at hIsOk
    exact absurd hIsOk (by simp [Except.isOk, Except.toBool])
  · obtain ⟨fs1, mem1, path1⟩ := p
    have hC5 := C5_recipient_ignored PermissivePrims ⟨[(adminPubPath, "PUB".data)]⟩ ⟨[]⟩
      "vid" demoKey demoNonce demoPt "desc" "t" "e"
    rcases hC5.2.2 "~/.ssh/id_ed25519.pub" fs1 mem1 path1 h
      with ⟨pub, wrapped, ct, hpub, hct, hwr, hread⟩
    refine ⟨h.symm.trans (hC5.1 "~/.ssh/id_ed25519.pub" "someone-else"), pub, wrapped, ct,
      hpub, hct, hwr, fs1, mem1, path1, rfl, ?_⟩
    have hctd : ct = demoCt := by
      have := hct
      simp only [PermissivePrims] at this
      exact (Option.some.inj this).symm
    rw [hread, hctd]

/-- Splitting at the separator recovers a separator-free prefix. -/
theorem splitOnceL_append_not_mem (sep : Char) (a b : List Char) (h : sep ∉ a) :
    splitOnceL sep (a ++ sep :: b) = some (a, b) := by
  induction a with
  | nil => simp [splitOnceL]
  | cons c cs ih =>
    have hc : ¬(c == sep) = true := by
      simp only [beq_iff_eq]
      intro hEq
      exact h (hEq ▸ List.mem_cons_self c cs)
    simp only [List.cons_append, splitOnceL, if_neg hc, List.append_eq]
    rw [ih (fun hm => h (List.mem_cons_of_mem c hm))]
    rfl

/-- The admin private key path never collides with a vault file path. -/
theorem adminPrivPath_ne_vaultFilePath (id : String) : adminPrivPath ≠ vaultFilePath id := by
  intro h
  have hd := congrArg String.data h
  unfold adminPrivPath vaultFilePath at hd
  rw [String.data_append, String.data_append] at hd
  have h0 := congrArg (fun l : List Char => l.get? 0) hd
  simp only [] at h0
  rw [show ∀ (b c : List Char), (("data/vault/".data ++ b) ++ c).get? 0 = some 'd' from by
      intro b c
      rw [List.get?_append (by simp), List.get?_append (by decide)]
      decide] at h0
  exact absurd h0 (by decide)

/-- The admin private key path never collides with a metadata path. -/
theorem adminPrivPath_ne_metaFilePath (id : String) : adminPrivPath ≠ metaFilePath id := by
  intro h
  have hd := congrArg String.data h
  unfold adminPrivPath metaFilePath at hd
  rw [String.data_append, String.data_append] at hd
  have h0 := congrArg (fun l : List Char => l.get? 0) hd
  simp only [] at h0
  rw [show ∀ (b c : List Char), (("data/meta/".data ++ b) ++ c).get? 0 = some 'd' from by
      intro b c
      rw [List.get?_append (by simp), List.get?_append (by decide)]
      decide] at h0
  exact absurd h0 (by decide)

/-- Characterization of a successful `encrypt_to_vault`: the envelope
written to the vault file is the RSA wrap of the symmetric key (under
the admin public key) joined to the AEAD blob. -/
theorem encryptToVault_ok (P : CryptoPrims) (fs : FSState) (inner : SimpleMemory)
    (id : String) (symKey nonce pt : List Nat) (desc rcp ts eid : String)
    (fs' : FSState) (mem' : SimpleMemory) (path : String)
    (hok : VaultManager.encryptToVault P fs inner id symKey nonce pt desc rcp ts eid =
      .ok (fs', mem', path)) :
    ∃ pub ct wrapped, VaultManager.loadAdminPubkey fs = some pub ∧
      P.aeadEncrypt symKey nonce pt = some ct ∧
      P.rsaEncrypt (P.b64encode symKey) pub = some wrapped ∧
      fs' = (fs.write (vaultFilePath id)
        (wrapped ++ '.' :: P.b64encode (nonce ++ ct))).write (metaFilePath id) desc.data := by
  unfold VaultManager.encryptToVault hybridEncrypt at hok
  cases hpub : VaultManager.loadAdminPubkey fs with
  | none => simp [hpub] at hok
  | some pub =>
    simp only [hpub] at hok
    cases hct : P.aeadEncrypt symKey nonce pt with
    | none => simp [hct] at hok
    | some ct =>
      simp only [hct] at hok
      cases hwr : P.rsaEncrypt (P.b64encode symKey) pub with
      | none => simp [hwr] at hok
      | some wrapped =>
        simp only [hwr] at hok
        have hfs := congrArg Prod.fst (Except.ok.inj hok)
        dsimp only at hfs
        exact ⟨pub, ct, wrapped, rfl, rfl, hwr, hfs.symm⟩

/-- C3: envelope round trip.  Under the documented contracts of the
consumed crypto interfaces (base64/RSA/AEAD/UTF-8 round trips at the
session's values, dot-free wrapped key, 32-byte key, 12-byte nonce)
and with the admin RSA key pair present, `hybrid_decrypt ∘
hybrid_encrypt` returns the original plaintext, and consequently
`decrypt_from_vault` after `encrypt_to_vault` of `X` under an id
returns `X`. -/
theorem C3_vault_roundtrip (P : CryptoPrims) (fs : FSState) (inner : SimpleMemory)
    (pub priv : List Char) (symKey nonce ct ptBytes : List Nat) (wrapped : List Char)
    (X : List Char) (id desc rcp ts eid : String)
    (hpub : VaultManager.loadAdminPubkey fs = some pub)
    (hpriv : VaultManager.loadAdminPrivkey fs = some priv)
    (henc : P.aeadEncrypt symKey nonce ptBytes = some ct)
    (hwr : P.rsaEncrypt (P.b64encode symKey) pub = some wrapped)
    (hwd : P.rsaDecrypt wrapped priv = some (P.b64encode symKey))
    (hdot : '.' ∉ wrapped)
    (hks : P.b64decode (P.b64encode symKey) = some symKey)
    (hds : P.b64decode (P.b64encode (nonce ++ ct)) = some (nonce ++ ct))
    (hklen : symKey.length = 32)
    (hnlen : nonce.length = 12)
    (hct0 : ct ≠ [])
    (haead : P.aeadDecrypt symKey nonce ct = some ptBytes)
    (hutf : P.utf8Decode ptBytes = some X) :
    (hybridEncrypt P (some pub) symKey nonce ptBytes =
      .ok (wrapped ++ '.' :: P.b64encode (nonce ++ ct))
    ∧ hybridDecrypt P (some priv) (wrapped ++ '.' :: P.b64encode (nonce ++ ct)) = .ok X)
    ∧ (∀ (fs' : FSState) (mem' : SimpleMemory) (path : String),
      VaultManager.encryptToVault P fs inner id symKey nonce ptBytes desc rcp ts eid =
        .ok (fs', mem', path) →
      VaultManager.decryptFromVault P fs' id = .ok X) := by
  have hdec : hybridDecrypt P (some priv) (wrapped ++ '.' :: P.b64encode (nonce ++ ct)) =
      .ok X := by
    unfold hybridDecrypt
    rw [splitOnceL_append_not_mem '.' wrapped _ hdot]
    simp only [hwd, hks]
    rw [if_neg (by omega)]
    simp only [hds]
    rw [if_neg (by
      simp only [List.length_append, hnlen, NONCE_LEN]
      have : ct.length ≠ 0 := fun h0 => hct0 (List.length_eq_zero.mp h0)
      omega)]
    rw [show (nonce ++ ct).take NONCE_LEN = nonce from by
        rw [NONCE_LEN, ← hnlen]; exact List.take_left nonce ct,
      show (nonce ++ ct).drop NONCE_LEN = ct from by
        rw [NONCE_LEN, ← hnlen]; exact List.drop_left nonce ct]
    simp only [haead, hutf]
  refine ⟨⟨?_, hdec⟩, ?_⟩
  · unfold hybridEncrypt
    simp only [henc, hwr]
  · intro fs' mem' path hok
    rcases encryptToVault_ok P fs inner id symKey nonce ptBytes desc rcp ts eid fs' mem' path hok
      with ⟨pub2, ct2, wrapped2, hpub2, hct2, hwr2, hfs⟩
    have hpe : pub2 = pub := Option.some.inj (hpub2.symm.trans hpub)
    have hce : ct2 = ct := Option.some.inj (hct2.symm.trans henc)
    rw [hpe] at hwr2
    have hwe : wrapped2 = wrapped := Option.some.inj (hwr2.symm.trans hwr)
    rw [hce, hwe] at hfs
    unfold VaultManager.decryptFromVault
    rw [hfs, FSState.read_write_ne _ _ _ _ (Ne.symm (metaFilePath_ne_vaultFilePath id)),
      FSState.read_write_self]
    rw [show VaultManager.loadAdminPrivkey ((fs.write (vaultFilePath id)
        (wrapped ++ '.' :: P.b64encode (nonce ++ ct))).write (metaFilePath id) desc.data) =
        some priv from by
      unfold VaultManager.loadAdminPrivkey at hpriv ⊢
      rw [FSState.read_write_ne _ _ _ _ (adminPrivPath_ne_metaFilePath id),
        FSState.read_write_ne _ _ _ _ (adminPrivPath_ne_vaultFilePath id)]
      exact hpriv]
    exact hdec

/-- Witness for C3 at concrete values: the demonstration session's
envelope decrypts back to `super-secret-api-key-12345`. -/
theorem C3_vault_roundtrip_witness :
    hybridDecrypt PermissivePrims (some "PRIV".data)
      (demoB64encode demoKey ++ '.' :: PermissivePrims.b64encode (demoNonce ++ demoCt)) =
      .ok "super-secret-api-key-12345".data :=
  (C3_vault_roundtrip PermissivePrims
    ⟨[(adminPubPath, "PUB".data), (adminPrivPath, "PRIV".data)]⟩ ⟨[]⟩
    "PUB".data "PRIV".data demoKey demoNonce demoCt demoPt (demoB64encode demoKey)
    "super-secret-api-key-12345".data "vid" "desc" "rcp" "t" "e"
    (by decide) (by decide) (by decide) (by decide) (by decide) (by decide) (by decide)
    (by decide) (by decide) (by decide) (by decide) (by decide) (by decide)).1.2

/-- Characterization of a successful `split_once`: the prefix is
separator-free and the input decomposes around the separator. -/
theorem splitOnceL_eq_some (sep : Char) :
    ∀ (l a b : List Char), splitOnceL sep l = some (a, b) → l = a ++ sep :: b ∧ sep ∉ a := by
  intro l
  induction l with
  | nil => intro a b h; exact absurd h (by simp [splitOnceL])
  | cons c rest ih =>
    intro a b h
    unfold splitOnceL at h
    by_cases hc : (c == sep) = true
    · rw [if_pos hc] at h
      obtain ⟨ha, hb⟩ := Prod.mk.inj (Option.some.inj h)
      subst ha
      subst hb
      have : c = sep := by simpa using hc
      subst this
      exact ⟨rfl, by simp⟩
    · rw [if_neg hc] at h
      rcases Option.map_eq_some'.mp h with ⟨⟨a', b'⟩, hsplit, hpair⟩
      obtain ⟨ha, hb⟩ := Prod.mk.inj hpair
      rcases ih a' b' hsplit with ⟨hrest, hnot⟩
      subst hb
      rw [← ha]
      refine ⟨by rw [hrest]; rfl, ?_⟩
      intro hm
      rcases List.mem_cons.mp hm with hm1 | hm2
      · exact hc (by simp [hm1])
      · exact hnot hm2

/-- A text containing the separator always splits. -/
theorem splitOnceL_append_isSome (sep : Char) :
    ∀ (x y : List Char), (splitOnceL sep (x ++ sep :: y)).isSome = true := by
  intro x
  induction x with
  | nil => intro y; simp [splitOnceL]
  | cons c cs ih =>
    intro y
    by_cases hc : (c == sep) = true
    · simp [splitOnceL, hc]
    · simp only [List.cons_append, splitOnceL, if_neg hc, List.append_eq]
      have hy := ih y
      cases hsp : splitOnceL sep (cs ++ sep :: y) with
      | none => rw [hsp] at hy; exact absurd hy (by simp)
      | some z => simp [hsp]

/-- Overwriting a position with a different character changes the list. -/
theorem set_ne_self (l : List Char) (j : Nat) (hj : j < l.length) (c' : Char)
    (hc : c' ≠ l.get ⟨j, hj⟩) : l.set j c' ≠ l := by
  intro hEq
  have h1 : (l.set j c').get? j = some c' := List.get?_set_eq_of_lt c' hj
  rw [hEq, List.get?_eq_get hj] at h1
  exact hc (Option.some.inj h1).symm

/-- Walking `hybrid_decrypt` over any envelope that splits: either it
fails with one of the kinds a tampered envelope can produce, or every
primitive up to and including the AEAD authentication succeeded. -/
theorem hybridDecrypt_error_or_aead (P : CryptoPrims) (priv env a b : List Char)
    (hsplit : splitOnceL '.' env = some (a, b)) :
    (∃ e, hybridDecrypt P (some priv) env = .error e ∧
      (e = VaultError.WrappedKeyRejected ∨ e = VaultError.MalformedEnvelope ∨
       e = VaultError.TamperedData))
    ∨ (∃ s kk blob r, P.rsaDecrypt a priv = some s ∧ P.b64decode s = some kk ∧
        kk.length = 32 ∧ P.b64decode b = some blob ∧ NONCE_LEN < blob.length ∧
        P.aeadDecrypt kk (blob.take NONCE_LEN) (blob.drop NONCE_LEN) = some r) := by
  unfold hybridDecrypt
  simp only [hsplit]
  cases hra : P.rsaDecrypt a priv with
  | none => exact Or.inl ⟨VaultError.WrappedKeyRejected, rfl, Or.inl rfl⟩
  | some s =>
    dsimp only
    cases hsb : P.b64decode s with
    | none => exact Or.inl ⟨VaultError.MalformedEnvelope, rfl, Or.inr (Or.inl rfl)⟩
    | some kk =>
      dsimp only
      by_cases hkk : kk.length = 32
      · rw [if_neg (by omega)]
        cases hdb : P.b64decode b with
        | none => exact Or.inl ⟨VaultError.MalformedEnvelope, rfl, Or.inr (Or.inl rfl)⟩
        | some blob =>
          dsimp only
          by_cases hbl : blob.length ≤ NONCE_LEN
          · rw [if_pos hbl]
            exact Or.inl ⟨VaultError.MalformedEnvelope, rfl, Or.inr (Or.inl rfl)⟩
          · rw [if_neg hbl]
            cases had : P.aeadDecrypt kk (blob.take NONCE_LEN) (blob.drop NONCE_LEN) with
            | none => exact Or.inl ⟨VaultError.TamperedData, rfl, Or.inr (Or.inr rfl)⟩
            | some r =>
              exact Or.inr ⟨s, kk, blob, r, by simp only [hra], by simp only [hsb],
                hkk, by simp only [hdb], by omega, had⟩
      · rw [if_pos hkk]
        exact Or.inl ⟨VaultError.MalformedEnvelope, rfl, Or.inr (Or.inl rfl)⟩

/-- C4 (amended): tamper resistance of the hybrid envelope.  With the
documented contracts of the consumed primitives (canonical dot-free
base64, an AEAD that authenticates only the genuine key/nonce/
ciphertext triple, an RSA unwrap that yields the wrapped symmetric key
only for the genuine wrapped text), mutating any byte of either half
of a produced envelope makes `hybrid_decrypt` fail; the failure kind
is `TamperedData` on an authentication failure, `MalformedEnvelope`
on an unparseable envelope, `MissingKey` on missing recipient keys —
and additionally `WrappedKeyRejected` when a key-half mutation makes
the RSA unwrap itself fail (the case the original claim's three-kind
list omits); the kinds are pairwise distinct. -/
theorem C4_envelope_tamper (P : CryptoPrims) (priv pub : List Char)
    (symKey nonce ct ptBytes : List Nat) (wrapped : List Char)
    (henc : P.aeadEncrypt symKey nonce ptBytes = some ct)
    (hwr : P.rsaEncrypt (P.b64encode symKey) pub = some wrapped)
    (hwd : P.rsaDecrypt wrapped priv = some (P.b64encode symKey))
    (hdot : '.' ∉ wrapped)
    (hcanon : ∀ s b, P.b64decode s = some b → s = P.b64encode b)
    (hks : P.b64decode (P.b64encode symKey) = some symKey)
    (hklen : symKey.length = 32)
    (hauth : ∀ k n c r, P.aeadDecrypt k n c = some r → k = symKey ∧ n = nonce ∧ c = ct)
    (hrsaKey : ∀ w s, P.rsaDecrypt w priv = some s → s = P.b64encode symKey → w = wrapped) :
    (hybridEncrypt P (some pub) symKey nonce ptBytes =
      .ok (wrapped ++ '.' :: P.b64encode (nonce ++ ct)))
    ∧ (∀ (j : Nat) (hj : j < wrapped.length) (c' : Char), c' ≠ wrapped.get ⟨j, hj⟩ →
        ∃ e, hybridDecrypt P (some priv)
          ((wrapped.set j c') ++ '.' :: P.b64encode (nonce ++ ct)) = .error e ∧
          (e = VaultError.WrappedKeyRejected ∨ e = VaultError.MalformedEnvelope ∨
           e = VaultError.TamperedData))
    ∧ (∀ (j : Nat) (hj : j < (P.b64encode (nonce ++ ct)).length) (c' : Char),
        c' ≠ (P.b64encode (nonce ++ ct)).get ⟨j, hj⟩ →
        ∃ e, hybridDecrypt P (some priv)
          (wrapped ++ '.' :: ((P.b64encode (nonce ++ ct)).set j c')) = .error e ∧
          (e = VaultError.MalformedEnvelope ∨ e = VaultError.TamperedData))
    ∧ hybridDecrypt P none (wrapped ++ '.' :: P.b64encode (nonce ++ ct)) =
        .error VaultError.MissingKey
    ∧ (VaultError.TamperedData ≠ VaultError.MalformedEnvelope ∧
       VaultError.TamperedData ≠ VaultError.MissingKey ∧
       VaultError.MalformedEnvelope ≠ VaultError.MissingKey ∧
       VaultError.WrappedKeyRejected ≠ VaultError.TamperedData ∧
       VaultError.WrappedKeyRejected ≠ VaultError.MalformedEnvelope ∧
       VaultError.WrappedKeyRejected ≠ VaultError.MissingKey) := by
  refine ⟨?_, ?_, ?_, rfl, by decide⟩
  · unfold hybridEncrypt
    simp only [henc, hwr]
  · -- key-half mutation
    intro j hj c' hc
    have hset := set_ne_self wrapped j hj c' hc
    obtain ⟨⟨a, b⟩, hz⟩ := Option.isSome_iff_exists.mp
      (splitOnceL_append_isSome '.' (wrapped.set j c') (P.b64encode (nonce ++ ct)))
    rcases splitOnceL_eq_some '.' _ a b hz with ⟨hdecomp, hafree⟩
    rcases hybridDecrypt_error_or_aead P priv _ a b hz with he | hsucc
    · exact he
    · exfalso
      rcases hsucc with ⟨s, kk, blob, r, hra, hsb, hkk, hdb, hbl, had⟩
      rcases hauth kk _ _ r had with ⟨hkkE, hnE, hcE⟩
      have hblob : blob = nonce ++ ct := by
        rw [← List.take_append_drop NONCE_LEN blob, hnE, hcE]
      have hb : b = P.b64encode (nonce ++ ct) := by
        rw [← hblob]
        exact hcanon b blob hdb
      have hs : s = P.b64encode symKey := by
        rw [← hkkE]
        exact hcanon s kk hsb
      have ha : a = wrapped := hrsaKey a s hra hs
      rw [ha, hb] at hdecomp
      exact hset (List.append_cancel_right hdecomp)
  · -- data-half mutation
    intro j hj c' hc
    have hset := set_ne_self _ j hj c' hc
    have hz := splitOnceL_append_not_mem '.' wrapped ((P.b64encode (nonce ++ ct)).set j c') hdot
    unfold hybridDecrypt
    simp only [hz, hwd, hks]
    rw [if_neg (by omega)]
    cases hdb : P.b64decode ((P.b64encode (nonce ++ ct)).set j c') with
    | none => exact ⟨VaultError.MalformedEnvelope, rfl, Or.inl rfl⟩
    | some blob =>
      dsimp only
      by_cases hbl : blob.length ≤ NONCE_LEN
      · rw [if_pos hbl]
        exact ⟨VaultError.MalformedEnvelope, rfl, Or.inl rfl⟩
      · rw [if_neg hbl]
        cases had : P.aeadDecrypt symKey (blob.take NONCE_LEN) (blob.drop NONCE_LEN) with
        | none => exact ⟨VaultError.TamperedData, rfl, Or.inr rfl⟩
        | some r =>
          exfalso
          rcases hauth symKey _ _ r had with ⟨_, hnE, hcE⟩
          have hblob : blob = nonce ++ ct := by
            rw [← List.take_append_drop NONCE_LEN blob, hnE, hcE]
          have hd : (P.b64encode (nonce ++ ct)).set j c' = P.b64encode (nonce ++ ct) := by
            rw [hcanon _ blob hdb, hblob]
          exact hset hd

/-- C4 (counterexample): with the demonstration primitives, mutating
the first byte of the key half of a genuine envelope makes
`hybrid_decrypt` fail with `WrappedKeyRejected` — a kind outside the
claim's list {TamperedData, MalformedEnvelope, MissingKey}. -/
theorem C4_envelope_tamper_counterexample :
    hybridEncrypt DemoPrims (some "PUB".data) demoKey demoNonce demoPt =
      .ok (demoWrapped ++ '.' :: DemoPrims.b64encode (demoNonce ++ demoCt))
    ∧ hybridDecrypt DemoPrims (some "PRIV".data)
        ((demoWrapped.set 0 'X') ++ '.' :: DemoPrims.b64encode (demoNonce ++ demoCt)) =
        .error VaultError.WrappedKeyRejected
    ∧ VaultError.WrappedKeyRejected ≠ VaultError.TamperedData
    ∧ VaultError.WrappedKeyRejected ≠ VaultError.MalformedEnvelope
    ∧ VaultError.WrappedKeyRejected ≠ VaultError.MissingKey := by
  refine ⟨by rfl, by rfl, by decide, by decide, by decide⟩

/-- The demonstration AEAD authenticates only the genuine triple. -/
theorem demoAead_auth (k n c r : List Nat) (h : DemoPrims.aeadDecrypt k n c = some r) :
    k = demoKey ∧ n = demoNonce ∧ c = demoCt := by
  by_cases hcond : k = demoKey ∧ n = demoNonce ∧ c = demoCt
  · exact hcond
  · rw [show DemoPrims.aeadDecrypt k n c = none from by simp only [DemoPrims]; rw [if_neg hcond]]
      at h
    exact absurd h (by simp)

/-- The demonstration RSA unwrap succeeds only on the genuine wrapped text. -/
theorem demoRsa_key (w s : List Char) (h : DemoPrims.rsaDecrypt w "PRIV".data = some s)
    (_ : s = DemoPrims.b64encode demoKey) : w = demoWrapped := by
  by_cases hw : w = demoWrapped
  · exact hw
  · rw [show DemoPrims.rsaDecrypt w "PRIV".data = none from by
      simp only [DemoPrims]; rw [if_neg hw]] at h
    exact absurd h (by simp)

/-- Witness for C4 at a concrete mutation: flipping byte 1 of the key
half of the demonstration envelope produces a decryption failure of
one of the tamper kinds. -/
theorem C4_envelope_tamper_witness :
    ∃ e, hybridDecrypt DemoPrims (some "PRIV".data)
      ((demoWrapped.set 1 'Z') ++ '.' :: DemoPrims.b64encode (demoNonce ++ demoCt)) =
        .error e ∧
      (e = VaultError.WrappedKeyRejected ∨ e = VaultError.MalformedEnvelope ∨
       e = VaultError.TamperedData) :=
  (C4_envelope_tamper DemoPrims "PRIV".data "PUB".data demoKey demoNonce demoCt demoPt
    demoWrapped (by decide) (by decide) (by decide) (by decide)
    (fun s b h => demoB64decode_canonical s b h) (by decide) (by decide)
    demoAead_auth demoRsa_key).2.1 1 (by decide) 'Z' (by decide)
